import Mathlib

/-!
# Dot-accumulate and horizontal-reduce kernels of `src/nnue/layers/simd.h`

A shallow embedding of the SIMD helper layer of the NNUE evaluator.

* A vector register is a map from lane index to lane content.  A lane content is an
  integer standing for the bit pattern of the lane: only its residue modulo `2^w`
  (`w` the lane width) is ever read, through one of the readings `u8`, `s8`, `s16`,
  `s32` below.  Every arithmetic instruction stores the signed representative.
* The C++ register types (`__m128i`, `__m256i`, `__m512i`, `int8x16_t`, ...) carry no
  lane width of their own; each instruction fixes the view it takes of its operands.
  The embedding types every instruction with its view: `Vec 16` is a 128-bit register
  seen as bytes, `Vec 8` as 16-bit words, `Vec 4` as 32-bit dwords, and so on.
* The hardware instructions are not part of the repository.  They are transcribed from
  the operation pseudo-code of the vendor manuals (Intel Intrinsics Guide, Arm
  Architecture Reference Manual, WebAssembly SIMD proposal).
* The functions of `simd.h` take the accumulator by reference and return `void`; here
  they return the new accumulator.  Preprocessor switches that select a branch inside a
  function body are parameters of the embedded function.
* Scalar `int` additions are taken in two's-complement wrap-around, which is what the
  targeted compilers emit for them.
-/

namespace Stockfish.Simd

/-! ## Lane readings -/

/-- Unsigned reading of an 8-bit lane. -/
def u8 (x : Int) : Int := x % 256

/-- Signed (two's-complement) reading of an 8-bit lane. -/
def s8 (x : Int) : Int := (x + 128) % 256 - 128

/-- Signed (two's-complement) reading of a 16-bit lane. -/
def s16 (x : Int) : Int := (x + 32768) % 65536 - 32768

/-- Signed (two's-complement) reading of a 32-bit lane. -/
def s32 (x : Int) : Int := (x + 2147483648) % 4294967296 - 2147483648

/-- Signed saturation to 16 bits, the `Saturate16` of the Intel pseudo-code. -/
def sat16 (x : Int) : Int :=
  if x > 32767 then 32767 else if x < -32768 then -32768 else x

/-- A register seen as `n` lanes. -/
abbrev Vec (n : Nat) := Fin n → Int

/-- Lane `i` of a register, `0` outside the register. -/
def lane {n : Nat} (v : Vec n) (i : Nat) : Int :=
  if h : i < n then v ⟨i, h⟩ else 0

/-! ## x86 instructions -/

/-- Lane-wise 32-bit addition: `_mm_add_epi32`, `_mm256_add_epi32`, `_mm512_add_epi32`. -/
def add_epi32 (n : Nat) (a b : Vec n) : Vec n :=
  fun i => s32 (a i + b i)

/-- The `_mm_add_epi32` instruction (four dwords). -/
def _mm_add_epi32 (a b : Vec 4) : Vec 4 := add_epi32 4 a b

/-- The `_mm256_add_epi32` instruction (eight dwords). -/
def _mm256_add_epi32 (a b : Vec 8) : Vec 8 := add_epi32 8 a b

/-- The `_mm512_add_epi32` instruction (sixteen dwords). -/
def _mm512_add_epi32 (a b : Vec 16) : Vec 16 := add_epi32 16 a b

/-- The `_mm_shuffle_epi32` instruction: dword `i` of the result is the dword of `a`
selected by bits `2i+1 : 2i` of the immediate. -/
def _mm_shuffle_epi32 (a : Vec 4) (imm8 : Nat) : Vec 4 :=
  fun i => a ⟨(imm8 / 4 ^ i.val) % 4, Nat.mod_lt _ (by decide)⟩

/-- The `_mm_cvtsi128_si32` instruction: the lowest dword, as an `int`. -/
def _mm_cvtsi128_si32 (a : Vec 4) : Int := s32 (a 0)

/-- The `_mm256_castsi256_si128` cast: the low 128 bits. -/
def _mm256_castsi256_si128 (a : Vec 8) : Vec 4 :=
  fun i => a ⟨i.val, by omega⟩

/-- The `_mm256_extracti128_si256` instruction: the 128-bit half selected by bit 0 of
the immediate. -/
def _mm256_extracti128_si256 (a : Vec 8) (imm8 : Nat) : Vec 4 :=
  fun i => if imm8 % 2 = 0 then a ⟨i.val, by omega⟩ else a ⟨i.val + 4, by omega⟩

/-- The shuffle immediate `_MM_PERM_BADC` of the Intel headers (the source spells it
`0x4E` in `m128_hadd`). -/
def _MM_PERM_BADC : Nat := 0x4E

/-- The shuffle immediate `_MM_PERM_CDAB` of the Intel headers (the source spells it
`0xB1` in `m128_hadd`). -/
def _MM_PERM_CDAB : Nat := 0xB1

/-- One halving step of the `REDUCE_ADD` pseudo-code:
`src[j] := src[j] + src[j + len]` for `j < len`. -/
def reduce_add_step (len : Nat) (src : Vec (2 * len)) : Vec len :=
  fun j => s32 (src ⟨j.val, by omega⟩ + src ⟨j.val + len, by omega⟩)

/-- The `_mm512_reduce_add_epi32` sequence: `REDUCE_ADD(a, 16)`, halving until two
lanes are left, which are added. -/
def _mm512_reduce_add_epi32 (a : Vec 16) : Int :=
  let a8 := reduce_add_step 8 a
  let a4 := reduce_add_step 4 a8
  let a2 := reduce_add_step 2 a4
  s32 (a2 0 + a2 1)

/-- The `_mm512_unpacklo_epi32` instruction: inside every 128-bit block, interleave
the two low dwords of `a` and `b`. -/
def _mm512_unpacklo_epi32 (a b : Vec 16) : Vec 16 :=
  fun i =>
    if i.val % 4 = 0 then a ⟨4 * (i.val / 4), by omega⟩
    else if i.val % 4 = 1 then b ⟨4 * (i.val / 4), by omega⟩
    else if i.val % 4 = 2 then a ⟨4 * (i.val / 4) + 1, by omega⟩
    else b ⟨4 * (i.val / 4) + 1, by omega⟩

/-- The `_mm512_unpackhi_epi32` instruction: inside every 128-bit block, interleave
the two high dwords of `a` and `b`. -/
def _mm512_unpackhi_epi32 (a b : Vec 16) : Vec 16 :=
  fun i =>
    if i.val % 4 = 0 then a ⟨4 * (i.val / 4) + 2, by omega⟩
    else if i.val % 4 = 1 then b ⟨4 * (i.val / 4) + 2, by omega⟩
    else if i.val % 4 = 2 then a ⟨4 * (i.val / 4) + 3, by omega⟩
    else b ⟨4 * (i.val / 4) + 3, by omega⟩

/-- The `_mm512_unpacklo_epi64` instruction on the dword view: inside every 128-bit
block, the low qword (dwords 0 and 1) of `a` followed by the low qword of `b`. -/
def _mm512_unpacklo_epi64 (a b : Vec 16) : Vec 16 :=
  fun i =>
    if i.val % 4 = 0 then a ⟨4 * (i.val / 4), by omega⟩
    else if i.val % 4 = 1 then a ⟨4 * (i.val / 4) + 1, by omega⟩
    else if i.val % 4 = 2 then b ⟨4 * (i.val / 4), by omega⟩
    else b ⟨4 * (i.val / 4) + 1, by omega⟩

/-- The `_mm512_unpackhi_epi64` instruction on the dword view: inside every 128-bit
block, the high qword (dwords 2 and 3) of `a` followed by the high qword of `b`. -/
def _mm512_unpackhi_epi64 (a b : Vec 16) : Vec 16 :=
  fun i =>
    if i.val % 4 = 0 then a ⟨4 * (i.val / 4) + 2, by omega⟩
    else if i.val % 4 = 1 then a ⟨4 * (i.val / 4) + 3, by omega⟩
    else if i.val % 4 = 2 then b ⟨4 * (i.val / 4) + 2, by omega⟩
    else b ⟨4 * (i.val / 4) + 3, by omega⟩

/-! ## x86 horizontal reducers -/

/-- Source function `m512_hadd` (simd.h:45-47). -/
def m512_hadd (sum : Vec 16) (bias : Int) : Int :=
  s32 (_mm512_reduce_add_epi32 sum + bias)

/-- Source function `m512_hadd128x16_interleave` (simd.h:64-80). -/
def m512_hadd128x16_interleave (sum0 sum1 sum2 sum3 : Vec 16) : Vec 16 :=
  let sum01a := _mm512_unpacklo_epi32 sum0 sum1
  let sum01b := _mm512_unpackhi_epi32 sum0 sum1
  let sum23a := _mm512_unpacklo_epi32 sum2 sum3
  let sum23b := _mm512_unpackhi_epi32 sum2 sum3
  let sum01 := _mm512_add_epi32 sum01a sum01b
  let sum23 := _mm512_add_epi32 sum23a sum23b
  let sum0123a := _mm512_unpacklo_epi64 sum01 sum23
  let sum0123b := _mm512_unpackhi_epi64 sum01 sum23
  _mm512_add_epi32 sum0123a sum0123b

/-- Source function `m256_hadd` (simd.h:107-112). -/
def m256_hadd (sum : Vec 8) (bias : Int) : Int :=
  let sum128 := _mm_add_epi32 (_mm256_castsi256_si128 sum) (_mm256_extracti128_si256 sum 1)
  let sum128 := _mm_add_epi32 sum128 (_mm_shuffle_epi32 sum128 _MM_PERM_BADC)
  let sum128 := _mm_add_epi32 sum128 (_mm_shuffle_epi32 sum128 _MM_PERM_CDAB)
  s32 (_mm_cvtsi128_si32 sum128 + bias)

/-- Source function `m128_hadd` (simd.h:129-133). -/
def m128_hadd (sum : Vec 4) (bias : Int) : Int :=
  let sum := _mm_add_epi32 sum (_mm_shuffle_epi32 sum 0x4E)
  let sum := _mm_add_epi32 sum (_mm_shuffle_epi32 sum 0xB1)
  s32 (_mm_cvtsi128_si32 sum + bias)

/-! ## x86 dot-product instructions -/

/-- The `maddubs_epi16` family (`_mm_`, `_mm256_`, `_mm512_`): word `j` is the signed
saturation of `a.byte[2j+1] * b.byte[2j+1] + a.byte[2j] * b.byte[2j]`, the bytes of `a`
read unsigned and the bytes of `b` read signed. -/
def maddubs_epi16 (n : Nat) (a b : Vec (2 * n)) : Vec n :=
  fun j =>
    sat16 (u8 (a ⟨2 * j.val + 1, by omega⟩) * s8 (b ⟨2 * j.val + 1, by omega⟩)
      + u8 (a ⟨2 * j.val, by omega⟩) * s8 (b ⟨2 * j.val, by omega⟩))

/-- The `madd_epi16` family: dword `j` is
`a.word[2j+1] * b.word[2j+1] + a.word[2j] * b.word[2j]`, the words read signed. -/
def madd_epi16 (n : Nat) (a b : Vec (2 * n)) : Vec n :=
  fun j =>
    s32 (s16 (a ⟨2 * j.val + 1, by omega⟩) * s16 (b ⟨2 * j.val + 1, by omega⟩)
      + s16 (a ⟨2 * j.val, by omega⟩) * s16 (b ⟨2 * j.val, by omega⟩))

/-- The `set1_epi16` family: every word holds `x`. -/
def set1_epi16 (n : Nat) (x : Int) : Vec n :=
  fun _ => s16 x

/-- The `dpbusd_epi32` family (AVX-512 VNNI): four products of an unsigned byte of `a`
with a signed byte of `b`, each a 16-bit word, are added to dword `j` of `src`. -/
def dpbusd_epi32 (n : Nat) (src : Vec n) (a b : Vec (4 * n)) : Vec n :=
  fun j =>
    let tmp1 := s16 (u8 (a ⟨4 * j.val, by omega⟩) * s8 (b ⟨4 * j.val, by omega⟩))
    let tmp2 := s16 (u8 (a ⟨4 * j.val + 1, by omega⟩) * s8 (b ⟨4 * j.val + 1, by omega⟩))
    let tmp3 := s16 (u8 (a ⟨4 * j.val + 2, by omega⟩) * s8 (b ⟨4 * j.val + 2, by omega⟩))
    let tmp4 := s16 (u8 (a ⟨4 * j.val + 3, by omega⟩) * s8 (b ⟨4 * j.val + 3, by omega⟩))
    s32 (src j + tmp1 + tmp2 + tmp3 + tmp4)

/-- The `_mm_maddubs_epi16` instruction. -/
def _mm_maddubs_epi16 (a b : Vec 16) : Vec 8 := maddubs_epi16 8 a b

/-- The `_mm256_maddubs_epi16` instruction. -/
def _mm256_maddubs_epi16 (a b : Vec 32) : Vec 16 := maddubs_epi16 16 a b

/-- The `_mm512_maddubs_epi16` instruction. -/
def _mm512_maddubs_epi16 (a b : Vec 64) : Vec 32 := maddubs_epi16 32 a b

/-- The `_mm_madd_epi16` instruction. -/
def _mm_madd_epi16 (a b : Vec 8) : Vec 4 := madd_epi16 4 a b

/-- The `_mm256_madd_epi16` instruction. -/
def _mm256_madd_epi16 (a b : Vec 16) : Vec 8 := madd_epi16 8 a b

/-- The `_mm512_madd_epi16` instruction. -/
def _mm512_madd_epi16 (a b : Vec 32) : Vec 16 := madd_epi16 16 a b

/-- The `_mm_set1_epi16` instruction. -/
def _mm_set1_epi16 (x : Int) : Vec 8 := set1_epi16 8 x

/-- The `_mm256_set1_epi16` instruction. -/
def _mm256_set1_epi16 (x : Int) : Vec 16 := set1_epi16 16 x

/-- The `_mm512_set1_epi16` instruction. -/
def _mm512_set1_epi16 (x : Int) : Vec 32 := set1_epi16 32 x

/-- The `_mm256_dpbusd_epi32` instruction. -/
def _mm256_dpbusd_epi32 (src : Vec 8) (a b : Vec 32) : Vec 8 := dpbusd_epi32 8 src a b

/-- The `_mm512_dpbusd_epi32` instruction. -/
def _mm512_dpbusd_epi32 (src : Vec 16) (a b : Vec 64) : Vec 16 := dpbusd_epi32 16 src a b

/-- The compiler builtin `__builtin_shufflevector(x, y, idx...)` on vectors of 64-bit
elements, each element spanning `g` lanes of the view taken (`g = 8` for bytes, `g = 2`
for dwords): element `e` of the result is element `idx e` of the concatenation of `x`
(elements `0 .. n-1`) and `y` (elements `n .. 2n-1`). -/
def __builtin_shufflevector (g n m : Nat) (x y : Vec (g * n)) (idx : Fin m → Nat) :
    Vec (g * m) :=
  fun i =>
    let e := idx ⟨i.val / g, Nat.div_lt_of_lt_mul i.isLt⟩
    if e < n then lane x (g * e + i.val % g) else lane y (g * (e - n) + i.val % g)

/-! ## x86 dot-accumulate -/

/-- Source function `m512_add_dpbusd_epi32` (simd.h:82-101), the new value of `acc`.
The two parameters are the preprocessor switches tested by the body. -/
def m512_add_dpbusd_epi32 (USE_VNNI USE_AVX512F : Bool) (acc : Vec 16) (a b : Vec 64) :
    Vec 16 :=
  if USE_VNNI then
    _mm512_dpbusd_epi32 acc a b
  else if USE_AVX512F then
    _mm512_add_epi32 acc
      (__builtin_shufflevector 2 4 8
        (_mm256_madd_epi16
          (_mm256_maddubs_epi16 (__builtin_shufflevector 8 8 4 a a ![0, 1, 2, 3])
            (__builtin_shufflevector 8 8 4 b b ![0, 1, 2, 3]))
          (_mm256_set1_epi16 1))
        (_mm256_madd_epi16
          (_mm256_maddubs_epi16 (__builtin_shufflevector 8 8 4 a a ![4, 5, 6, 7])
            (__builtin_shufflevector 8 8 4 b b ![4, 5, 6, 7]))
          (_mm256_set1_epi16 1))
        ![0, 1, 2, 3, 4, 5, 6, 7])
  else
    let product0 := _mm512_maddubs_epi16 a b
    let product0 := _mm512_madd_epi16 product0 (_mm512_set1_epi16 1)
    _mm512_add_epi32 acc product0

/-- Source function `m256_add_dpbusd_epi32` (simd.h:114-123), the new value of `acc`. -/
def m256_add_dpbusd_epi32 (USE_VNNI : Bool) (acc : Vec 8) (a b : Vec 32) : Vec 8 :=
  if USE_VNNI then
    _mm256_dpbusd_epi32 acc a b
  else
    let product0 := _mm256_maddubs_epi16 a b
    let product0 := _mm256_madd_epi16 product0 (_mm256_set1_epi16 1)
    _mm256_add_epi32 acc product0

/-- Source function `m128_add_dpbusd_epi32` (simd.h:135-140), the new value of `acc`. -/
def m128_add_dpbusd_epi32 (acc : Vec 4) (a b : Vec 16) : Vec 4 :=
  let product0 := _mm_maddubs_epi16 a b
  let product0 := _mm_madd_epi16 product0 (_mm_set1_epi16 1)
  _mm_add_epi32 acc product0

/-- The exact dot product of the four bytes feeding dword `k`: the bytes of `a` read
by `ra`, the bytes of `b` read by `rb`, summed in unbounded integers. -/
def dot4 (n : Nat) (ra rb : Int → Int) (a b : Vec (4 * n)) (k : Fin n) : Int :=
  ra (a ⟨4 * k.val, by omega⟩) * rb (b ⟨4 * k.val, by omega⟩)
    + ra (a ⟨4 * k.val + 1, by omega⟩) * rb (b ⟨4 * k.val + 1, by omega⟩)
    + ra (a ⟨4 * k.val + 2, by omega⟩) * rb (b ⟨4 * k.val + 2, by omega⟩)
    + ra (a ⟨4 * k.val + 3, by omega⟩) * rb (b ⟨4 * k.val + 3, by omega⟩)

/-- The exact sum of the two adjacent byte products feeding word `j`. -/
def dot2 (n : Nat) (ra rb : Int → Int) (a b : Vec (2 * n)) (j : Fin n) : Int :=
  ra (a ⟨2 * j.val, by omega⟩) * rb (b ⟨2 * j.val, by omega⟩)
    + ra (a ⟨2 * j.val + 1, by omega⟩) * rb (b ⟨2 * j.val + 1, by omega⟩)

/-- Every pair sum of the multiply step of the manual x86 path (bytes of `a` read
unsigned, bytes of `b` read signed) lies within the signed 16-bit range, so that
`maddubs_epi16` does not saturate. -/
def PairsFit16 (n : Nat) (a b : Vec (2 * n)) : Prop :=
  ∀ j : Fin n, -32768 ≤ dot2 n u8 s8 a b j ∧ dot2 n u8 s8 a b j ≤ 32767

/-! ## Arm instructions -/

/-- The `vget_low_s8` instruction: the low eight bytes. -/
def vget_low_s8 (a : Vec 16) : Vec 8 :=
  fun i => a ⟨i.val, by omega⟩

/-- The `vmull_s8` instruction (SMULL): signed widening multiply of eight bytes. -/
def vmull_s8 (a b : Vec 8) : Vec 8 :=
  fun i => s16 (s8 (a i) * s8 (b i))

/-- The `vmull_high_s8` instruction (SMULL2): signed widening multiply of the high eight
bytes. -/
def vmull_high_s8 (a b : Vec 16) : Vec 8 :=
  fun i => s16 (s8 (a ⟨i.val + 8, by omega⟩) * s8 (b ⟨i.val + 8, by omega⟩))

/-- The `vpaddq_s16` instruction (ADDP): word `e` is the 16-bit sum of words `2e` and
`2e+1` of the concatenation of `a` (low) and `b` (high). -/
def vpaddq_s16 (a b : Vec 8) : Vec 8 :=
  fun e =>
    if h : e.val < 4 then
      s16 (a ⟨2 * e.val, by omega⟩ + a ⟨2 * e.val + 1, by omega⟩)
    else
      s16 (b ⟨2 * (e.val - 4), by omega⟩ + b ⟨2 * (e.val - 4) + 1, by omega⟩)

/-- The `vpadalq_s16` instruction (SADALP): the signed words `2e` and `2e+1` of `v` are
added, widened, to dword `e` of `acc`. -/
def vpadalq_s16 (acc : Vec 4) (v : Vec 8) : Vec 4 :=
  fun e => s32 (acc e + (s16 (v ⟨2 * e.val, by omega⟩) + s16 (v ⟨2 * e.val + 1, by omega⟩)))

/-- The `vdotq_s32` instruction (SDOT): the four products of the signed bytes
`4e .. 4e+3` of `a` and `b` are summed and added to dword `e` of `r`. -/
def vdotq_s32 (r : Vec 4) (a b : Vec 16) : Vec 4 :=
  fun e =>
    let res := 0
    let res := res + s8 (a ⟨4 * e.val, by omega⟩) * s8 (b ⟨4 * e.val, by omega⟩)
    let res := res + s8 (a ⟨4 * e.val + 1, by omega⟩) * s8 (b ⟨4 * e.val + 1, by omega⟩)
    let res := res + s8 (a ⟨4 * e.val + 2, by omega⟩) * s8 (b ⟨4 * e.val + 2, by omega⟩)
    let res := res + s8 (a ⟨4 * e.val + 3, by omega⟩) * s8 (b ⟨4 * e.val + 3, by omega⟩)
    s32 (r e + res)

/-- The `vaddvq_s32` instruction (ADDV): the tree reduction `(s0 + s1) + (s2 + s3)`. -/
def vaddvq_s32 (s : Vec 4) : Int :=
  s32 (s32 (s 0 + s 1) + s32 (s 2 + s 3))

/-! ## Arm functions -/

/-- Source function `dotprod_m128_add_dpbusd_epi32` (simd.h:146-150), the new value of
`acc`. -/
def dotprod_m128_add_dpbusd_epi32 (acc : Vec 4) (a b : Vec 16) : Vec 4 :=
  vdotq_s32 acc a b

/-- Source function `neon_m128_reduce_add_epi32` (simd.h:155-161); the parameter is the
value of the preprocessor symbol `USE_NEON`. -/
def neon_m128_reduce_add_epi32 (USE_NEON : Nat) (s : Vec 4) : Int :=
  if USE_NEON ≥ 8 then
    vaddvq_s32 s
  else
    s32 (s32 (s32 (s32 (s 0) + s32 (s 1)) + s32 (s 2)) + s32 (s 3))

/-- Source function `neon_m128_hadd` (simd.h:163-165). -/
def neon_m128_hadd (USE_NEON : Nat) (sum : Vec 4) (bias : Int) : Int :=
  s32 (neon_m128_reduce_add_epi32 USE_NEON sum + bias)

/-- Source function `neon_m128_add_dpbusd_epi32` (simd.h:170-176), the new value of `acc`. -/
def neon_m128_add_dpbusd_epi32 (acc : Vec 4) (a b : Vec 16) : Vec 4 :=
  let product0 := vmull_s8 (vget_low_s8 a) (vget_low_s8 b)
  let product1 := vmull_high_s8 a b
  let sum := vpaddq_s16 product0 product1
  vpadalq_s16 acc sum

/-- No pair sum of the Arm fallback (both operands read signed) exceeds the signed
16-bit range, so that `vpaddq_s16` does not wrap around. -/
def SignedPairsFit16 (a b : Vec 16) : Prop :=
  ∀ j : Fin 8, dot2 8 s8 s8 a b j ≤ 32767

/-! ## WebAssembly instructions -/

/-- The `wasm_i8x16_shuffle` instruction: byte `i` of the result is byte `c i` of the
concatenation of `a` (bytes `0 .. 15`) and `b` (bytes `16 .. 31`). -/
def wasm_i8x16_shuffle (a b : Vec 16) (c : Fin 16 → Nat) : Vec 16 :=
  fun i => if c i < 16 then lane a (c i) else lane b (c i - 16)

/-- The `wasm_i16x8_extend_low_i8x16` instruction: the low eight bytes, sign-extended. -/
def wasm_i16x8_extend_low_i8x16 (a : Vec 16) : Vec 8 :=
  fun i => s8 (a ⟨i.val, by omega⟩)

/-- The `wasm_i16x8_extend_high_i8x16` instruction: the high eight bytes,
sign-extended. -/
def wasm_i16x8_extend_high_i8x16 (a : Vec 16) : Vec 8 :=
  fun i => s8 (a ⟨i.val + 8, by omega⟩)

/-- The `wasm_i32x4_dot_i16x8` instruction: dword `i` is
`a.word[2i] * b.word[2i] + a.word[2i+1] * b.word[2i+1]`, the words read signed. -/
def wasm_i32x4_dot_i16x8 (a b : Vec 8) : Vec 4 :=
  fun i =>
    s32 (s16 (a ⟨2 * i.val, by omega⟩) * s16 (b ⟨2 * i.val, by omega⟩)
      + s16 (a ⟨2 * i.val + 1, by omega⟩) * s16 (b ⟨2 * i.val + 1, by omega⟩))

/-- The `wasm_i32x4_add` instruction. -/
def wasm_i32x4_add (a b : Vec 4) : Vec 4 :=
  fun i => s32 (a i + b i)

/-- The `wasm_i32x4_extract_lane` instruction. -/
def wasm_i32x4_extract_lane (s : Vec 4) (i : Fin 4) : Int :=
  s32 (s i)

/-! ## WebAssembly functions -/

/-- Source function `wasm_i32x4_reduce_add` (simd.h:181-184). -/
def wasm_i32x4_reduce_add (s : Vec 4) : Int :=
  s32 (s32 (s32 (wasm_i32x4_extract_lane s 0 + wasm_i32x4_extract_lane s 1)
    + wasm_i32x4_extract_lane s 2) + wasm_i32x4_extract_lane s 3)

/-- Source function `wasm_i32x4_hadd` (simd.h:186-188). -/
def wasm_i32x4_hadd (sum : Vec 4) (bias : Int) : Int :=
  s32 (wasm_i32x4_reduce_add sum + bias)

/-- Source function `wasm_i32x4_add_dpbusd_epi32` (simd.h:190-204), the new value of `acc`.
The flag `relaxed` stands for
`defined(__wasm_relaxed_simd__) && defined(USE_WASM_SIMD_RELAXED)`; the
relaxed-SIMD builtin, whose result is implementation-defined on part of its domain, is
a parameter. -/
def wasm_i32x4_add_dpbusd_epi32 (relaxed : Bool)
    (__builtin_wasm_dot_i8x16_i7x16_add_s_i32x4 : Vec 16 → Vec 16 → Vec 4 → Vec 4)
    (acc : Vec 4) (a b : Vec 16) : Vec 4 :=
  if relaxed then
    __builtin_wasm_dot_i8x16_i7x16_add_s_i32x4 b a acc
  else
    let a := wasm_i8x16_shuffle a a ![0, 1, 4, 5, 8, 9, 12, 13, 2, 3, 6, 7, 10, 11, 14, 15]
    let b := wasm_i8x16_shuffle b b ![0, 1, 4, 5, 8, 9, 12, 13, 2, 3, 6, 7, 10, 11, 14, 15]
    let a_lo := wasm_i16x8_extend_low_i8x16 a
    let a_hi := wasm_i16x8_extend_high_i8x16 a
    let b_lo := wasm_i16x8_extend_low_i8x16 b
    let b_hi := wasm_i16x8_extend_high_i8x16 b
    let product0 := wasm_i32x4_dot_i16x8 a_lo b_lo
    let product1 := wasm_i32x4_dot_i16x8 a_hi b_hi
    wasm_i32x4_add acc (wasm_i32x4_add product0 product1)

/-! ## Definitions used to state the claims -/

/-- The sixteen unsigned bytes `1, 2, ..., 16`. -/
def bytes_1_to_16 : Vec 16 := fun i => i.val + 1

/-- The sixteen signed bytes `1, -1, 1, -1, ...`. -/
def bytes_alternating : Vec 16 := fun i => if i.val % 2 = 0 then 1 else -1

/-- The dword the manual x86 path adds to lane `k`: each adjacent pair of byte products
(bytes of `a` unsigned, bytes of `b` signed) is saturated to 16 bits, then the two
saturated pair sums are added. -/
def sat_dot4 (n : Nat) (a b : Vec (4 * n)) (k : Fin n) : Int :=
  sat16 (u8 (a ⟨4 * k.val, by omega⟩) * s8 (b ⟨4 * k.val, by omega⟩)
      + u8 (a ⟨4 * k.val + 1, by omega⟩) * s8 (b ⟨4 * k.val + 1, by omega⟩))
    + sat16 (u8 (a ⟨4 * k.val + 2, by omega⟩) * s8 (b ⟨4 * k.val + 2, by omega⟩)
      + u8 (a ⟨4 * k.val + 3, by omega⟩) * s8 (b ⟨4 * k.val + 3, by omega⟩))

/-! ## Arithmetic of the lane readings -/

theorem s32_add_s32_left (x y : Int) : s32 (s32 x + y) = s32 (x + y) := by
  unfold s32; omega

theorem s32_add_s32_right (x y : Int) : s32 (x + s32 y) = s32 (x + y) := by
  unfold s32; omega

theorem s32_s32 (x : Int) : s32 (s32 x) = s32 x := by
  unfold s32; omega

theorem u8_range (x : Int) : 0 ≤ u8 x ∧ u8 x ≤ 255 := by
  unfold u8; omega

theorem s8_range (x : Int) : -128 ≤ s8 x ∧ s8 x ≤ 127 := by
  unfold s8; omega

theorem s16_of_fits (x : Int) (h : -32768 ≤ x ∧ x ≤ 32767) : s16 x = x := by
  unfold s16; omega

theorem sat16_of_fits (x : Int) (h : -32768 ≤ x ∧ x ≤ 32767) : sat16 x = x := by
  unfold sat16; split_ifs <;> omega

theorem sat16_range (x : Int) : -32768 ≤ sat16 x ∧ sat16 x ≤ 32767 := by
  unfold sat16; split_ifs <;> omega

theorem u8_mul_s8_range (x y : Int) : -32640 ≤ u8 x * s8 y ∧ u8 x * s8 y ≤ 32385 := by
  obtain ⟨h0, h1⟩ := u8_range x
  obtain ⟨h2, h3⟩ := s8_range y
  constructor <;> nlinarith

theorem s8_mul_s8_range (x y : Int) : -16256 ≤ s8 x * s8 y ∧ s8 x * s8 y ≤ 16384 := by
  obtain ⟨h0, h1⟩ := s8_range x
  obtain ⟨h2, h3⟩ := s8_range y
  constructor <;> nlinarith

/-- The scalar core of the multiply / pair-add path: the two saturated pair sums are
widened and added to the accumulator lane. -/
theorem madd_ones_scalar (acc p0 p1 : Int) :
    s32 (acc + s32 (s16 (sat16 p1) * s16 (s16 1) + s16 (sat16 p0) * s16 (s16 1)))
      = s32 (acc + (sat16 p0 + sat16 p1)) := by
  have h1 : s16 (s16 1) = 1 := by decide
  rw [h1, s16_of_fits _ (sat16_range p0), s16_of_fits _ (sat16_range p1), s32_add_s32_right]
  congr 1
  ring


theorem m128_manual_lane (acc : Vec 4) (a b : Vec 16) (k : Fin 4) :
    m128_add_dpbusd_epi32 acc a b k
      = s32 (acc k + (sat16 (dot2 8 u8 s8 a b ⟨2 * k.val, by omega⟩)
          + sat16 (dot2 8 u8 s8 a b ⟨2 * k.val + 1, by omega⟩))) := by
  simp only [m128_add_dpbusd_epi32, _mm_add_epi32, add_epi32, _mm_madd_epi16, madd_epi16,
    _mm_maddubs_epi16, maddubs_epi16, _mm_set1_epi16, set1_epi16, madd_ones_scalar, dot2]
  congr 3 <;> ring_nf

theorem m256_manual_lane (acc : Vec 8) (a b : Vec 32) (k : Fin 8) :
    m256_add_dpbusd_epi32 false acc a b k
      = s32 (acc k + (sat16 (dot2 16 u8 s8 a b ⟨2 * k.val, by omega⟩)
          + sat16 (dot2 16 u8 s8 a b ⟨2 * k.val + 1, by omega⟩))) := by
  simp only [m256_add_dpbusd_epi32, _mm256_add_epi32, add_epi32, _mm256_madd_epi16, madd_epi16,
    _mm256_maddubs_epi16, maddubs_epi16, _mm256_set1_epi16, set1_epi16, madd_ones_scalar, dot2,
    Bool.false_eq_true, if_false]
  congr 3 <;> ring_nf

theorem m512_manual_lane (acc : Vec 16) (a b : Vec 64) (k : Fin 16) :
    m512_add_dpbusd_epi32 false false acc a b k
      = s32 (acc k + (sat16 (dot2 32 u8 s8 a b ⟨2 * k.val, by omega⟩)
          + sat16 (dot2 32 u8 s8 a b ⟨2 * k.val + 1, by omega⟩))) := by
  simp only [m512_add_dpbusd_epi32, _mm512_add_epi32, add_epi32, _mm512_madd_epi16, madd_epi16,
    _mm512_maddubs_epi16, maddubs_epi16, _mm512_set1_epi16, set1_epi16, madd_ones_scalar, dot2,
    Bool.false_eq_true, if_false]
  congr 3 <;> ring_nf


theorem dot4_eq_dot2_16 (a b : Vec 16) (k : Fin 4) :
    dot4 4 u8 s8 a b k
      = dot2 8 u8 s8 a b ⟨2 * k.val, by omega⟩
        + dot2 8 u8 s8 a b ⟨2 * k.val + 1, by omega⟩ := by
  simp only [dot4, dot2]
  ring_nf

theorem dot4_eq_dot2_32 (a b : Vec 32) (k : Fin 8) :
    dot4 8 u8 s8 a b k
      = dot2 16 u8 s8 a b ⟨2 * k.val, by omega⟩
        + dot2 16 u8 s8 a b ⟨2 * k.val + 1, by omega⟩ := by
  simp only [dot4, dot2]
  ring_nf

theorem dot4_eq_dot2_64 (a b : Vec 64) (k : Fin 16) :
    dot4 16 u8 s8 a b k
      = dot2 32 u8 s8 a b ⟨2 * k.val, by omega⟩
        + dot2 32 u8 s8 a b ⟨2 * k.val + 1, by omega⟩ := by
  simp only [dot4, dot2]
  ring_nf

theorem m128_manual_exact (acc : Vec 4) (a b : Vec 16) (h : PairsFit16 8 a b) (k : Fin 4) :
    m128_add_dpbusd_epi32 acc a b k = s32 (acc k + dot4 4 u8 s8 a b k) := by
  rw [m128_manual_lane, dot4_eq_dot2_16, sat16_of_fits _ (h _), sat16_of_fits _ (h _)]

theorem m256_manual_exact (acc : Vec 8) (a b : Vec 32) (h : PairsFit16 16 a b) (k : Fin 8) :
    m256_add_dpbusd_epi32 false acc a b k = s32 (acc k + dot4 8 u8 s8 a b k) := by
  rw [m256_manual_lane, dot4_eq_dot2_32, sat16_of_fits _ (h _), sat16_of_fits _ (h _)]

theorem m512_manual_exact (acc : Vec 16) (a b : Vec 64) (h : PairsFit16 32 a b) (k : Fin 16) :
    m512_add_dpbusd_epi32 false false acc a b k = s32 (acc k + dot4 16 u8 s8 a b k) := by
  rw [m512_manual_lane, dot4_eq_dot2_64, sat16_of_fits _ (h _), sat16_of_fits _ (h _)]

/-- The fused instruction adds the exact dot product: no word of it leaves 16 bits. -/
theorem dpbusd_lane (n : Nat) (src : Vec n) (a b : Vec (4 * n)) (k : Fin n) :
    dpbusd_epi32 n src a b k = s32 (src k + dot4 n u8 s8 a b k) := by
  have f : ∀ x y : Int, s16 (u8 x * s8 y) = u8 x * s8 y := fun x y =>
    s16_of_fits _ ⟨by have := u8_mul_s8_range x y; omega, by have := u8_mul_s8_range x y; omega⟩
  simp only [dpbusd_epi32, dot4, f]
  congr 1
  ring


theorem shufflevector_concat (x y : Vec 8) (k : Fin 16) :
    __builtin_shufflevector 2 4 8 x y ![0, 1, 2, 3, 4, 5, 6, 7] k
      = if h : k.val < 8 then x ⟨k.val, h⟩ else y ⟨k.val - 8, by omega⟩ := by
  have hidx : ∀ e : Fin 8, (![0, 1, 2, 3, 4, 5, 6, 7] : Fin 8 → Nat) e = e.val := by decide
  simp only [__builtin_shufflevector, hidx]
  fin_cases k <;> simp [lane]

theorem shufflevector_low (a : Vec 64) (i : Fin 32) :
    __builtin_shufflevector 8 8 4 a a ![0, 1, 2, 3] i = a ⟨i.val, by omega⟩ := by
  have hidx : ∀ e : Fin 4, (![0, 1, 2, 3] : Fin 4 → Nat) e = e.val := by decide
  have hi := i.isLt
  have h1 : i.val / 8 < 8 := by omega
  have h2 : 8 * (i.val / 8) + i.val % 8 = i.val := by omega
  simp only [__builtin_shufflevector, hidx, h1, if_true, h2, lane]
  rw [dif_pos (by omega)]

theorem shufflevector_high (a : Vec 64) (i : Fin 32) :
    __builtin_shufflevector 8 8 4 a a ![4, 5, 6, 7] i = a ⟨i.val + 32, by omega⟩ := by
  have hidx : ∀ e : Fin 4, (![4, 5, 6, 7] : Fin 4 → Nat) e = e.val + 4 := by decide
  have hi := i.isLt
  have h1 : i.val / 8 + 4 < 8 := by omega
  have h2 : 8 * (i.val / 8 + 4) + i.val % 8 = i.val + 32 := by omega
  simp only [__builtin_shufflevector, hidx, h1, if_true, h2, lane]
  rw [dif_pos (by omega)]


theorem m512_split_lane (acc : Vec 16) (a b : Vec 64) (k : Fin 16) :
    m512_add_dpbusd_epi32 false true acc a b k
      = s32 (acc k + (sat16 (dot2 32 u8 s8 a b ⟨2 * k.val, by omega⟩)
          + sat16 (dot2 32 u8 s8 a b ⟨2 * k.val + 1, by omega⟩))) := by
  have hk := k.isLt
  have l0 : 2 * (2 * k.val) = 4 * k.val := by omega
  have l1 : 2 * (2 * k.val) + 1 = 4 * k.val + 1 := by omega
  have l2 : 2 * (2 * k.val + 1) = 4 * k.val + 2 := by omega
  have l3 : 2 * (2 * k.val + 1) + 1 = 4 * k.val + 3 := by omega
  simp only [m512_add_dpbusd_epi32, _mm512_add_epi32, add_epi32, Bool.false_eq_true, if_false,
    if_true, shufflevector_concat, _mm256_madd_epi16, madd_epi16, _mm256_maddubs_epi16,
    maddubs_epi16, _mm256_set1_epi16, set1_epi16, shufflevector_low, shufflevector_high,
    madd_ones_scalar, dot2, l0, l1, l2, l3]
  by_cases h : k.val < 8
  · simp only [dif_pos h, l0, l1, l2, l3, madd_ones_scalar]
    congr 3 <;> ring_nf
  · have g0 : 2 * (2 * (k.val - 8)) + 32 = 4 * k.val := by omega
    have g1 : 2 * (2 * (k.val - 8)) + 1 + 32 = 4 * k.val + 1 := by omega
    have g2 : 2 * (2 * (k.val - 8) + 1) + 32 = 4 * k.val + 2 := by omega
    have g3 : 2 * (2 * (k.val - 8) + 1) + 1 + 32 = 4 * k.val + 3 := by omega
    simp only [dif_neg h, g0, g1, g2, g3, madd_ones_scalar]
    congr 3 <;> ring_nf


theorem s16_s16 (x : Int) : s16 (s16 x) = s16 x := by
  unfold s16; omega

theorem s16_add_s16 (x y : Int) : s16 (s16 x + s16 y) = s16 (x + y) := by
  unfold s16; omega

theorem s16_s8_mul_s8 (x y : Int) : s16 (s8 x * s8 y) = s8 x * s8 y :=
  s16_of_fits _ ⟨by have := s8_mul_s8_range x y; omega, by have := s8_mul_s8_range x y; omega⟩

theorem s16_s8 (x : Int) : s16 (s8 x) = s8 x :=
  s16_of_fits _ ⟨by have := s8_range x; omega, by have := s8_range x; omega⟩

theorem dotprod_lane (acc : Vec 4) (a b : Vec 16) (k : Fin 4) :
    dotprod_m128_add_dpbusd_epi32 acc a b k = s32 (acc k + dot4 4 s8 s8 a b k) := by
  simp only [dotprod_m128_add_dpbusd_epi32, vdotq_s32, dot4, zero_add]

theorem neon_lane (acc : Vec 4) (a b : Vec 16) (k : Fin 4) :
    neon_m128_add_dpbusd_epi32 acc a b k
      = s32 (acc k + (s16 (dot2 8 s8 s8 a b ⟨2 * k.val, by omega⟩)
          + s16 (dot2 8 s8 s8 a b ⟨2 * k.val + 1, by omega⟩))) := by
  have hk := k.isLt
  have l0 : 2 * (2 * k.val) = 4 * k.val := by omega
  have l1 : 2 * (2 * k.val) + 1 = 4 * k.val + 1 := by omega
  have l2 : 2 * (2 * k.val + 1) = 4 * k.val + 2 := by omega
  have l3 : 2 * (2 * k.val + 1) + 1 = 4 * k.val + 3 := by omega
  simp only [neon_m128_add_dpbusd_epi32, vpadalq_s16, vpaddq_s16, dot2, l0, l1, l2, l3]
  by_cases h : k.val < 2
  · have h1 : 2 * k.val < 4 := by omega
    have h2 : 2 * k.val + 1 < 4 := by omega
    simp only [dif_pos h1, dif_pos h2, vmull_s8, vget_low_s8, s16_s16, s16_add_s16, l0, l1,
      l2, l3]
  · have h1 : ¬ 2 * k.val < 4 := by omega
    have h2 : ¬ 2 * k.val + 1 < 4 := by omega
    have g0 : 2 * (2 * k.val - 4) + 8 = 4 * k.val := by omega
    have g1 : 2 * (2 * k.val - 4) + 1 + 8 = 4 * k.val + 1 := by omega
    have g2 : 2 * (2 * k.val + 1 - 4) + 8 = 4 * k.val + 2 := by omega
    have g3 : 2 * (2 * k.val + 1 - 4) + 1 + 8 = 4 * k.val + 3 := by omega
    simp only [dif_neg h1, dif_neg h2, vmull_high_s8, s16_s16, s16_add_s16, g0, g1, g2, g3]

theorem neon_exact (acc : Vec 4) (a b : Vec 16) (h : SignedPairsFit16 a b) (k : Fin 4) :
    neon_m128_add_dpbusd_epi32 acc a b k = s32 (acc k + dot4 4 s8 s8 a b k) := by
  have lo : ∀ j : Fin 8, -32768 ≤ dot2 8 s8 s8 a b j := fun j => by
    simp only [dot2]
    have h1 := s8_mul_s8_range (a ⟨2 * j.val, by omega⟩) (b ⟨2 * j.val, by omega⟩)
    have h2 := s8_mul_s8_range (a ⟨2 * j.val + 1, by omega⟩) (b ⟨2 * j.val + 1, by omega⟩)
    omega
  rw [neon_lane, s16_of_fits _ ⟨lo _, h _⟩, s16_of_fits _ ⟨lo _, h _⟩]
  simp only [dot4, dot2]
  congr 2
  ring_nf

theorem lane_eq {n : Nat} (v : Vec n) (i : Nat) (h : i < n) : lane v i = v ⟨i, h⟩ := by
  simp only [lane, dif_pos h]

theorem wasm_lane (f : Vec 16 → Vec 16 → Vec 4 → Vec 4) (acc : Vec 4) (a b : Vec 16)
    (k : Fin 4) :
    wasm_i32x4_add_dpbusd_epi32 false f acc a b k = s32 (acc k + dot4 4 s8 s8 a b k) := by
  have c0 : ∀ k : Fin 4,
      (![0, 1, 4, 5, 8, 9, 12, 13, 2, 3, 6, 7, 10, 11, 14, 15] : Fin 16 → Nat)
        ⟨2 * k.val, by omega⟩ = 4 * k.val := by decide
  have c1 : ∀ k : Fin 4,
      (![0, 1, 4, 5, 8, 9, 12, 13, 2, 3, 6, 7, 10, 11, 14, 15] : Fin 16 → Nat)
        ⟨2 * k.val + 1, by omega⟩ = 4 * k.val + 1 := by decide
  have c2 : ∀ k : Fin 4,
      (![0, 1, 4, 5, 8, 9, 12, 13, 2, 3, 6, 7, 10, 11, 14, 15] : Fin 16 → Nat)
        ⟨2 * k.val + 8, by omega⟩ = 4 * k.val + 2 := by decide
  have c3 : ∀ k : Fin 4,
      (![0, 1, 4, 5, 8, 9, 12, 13, 2, 3, 6, 7, 10, 11, 14, 15] : Fin 16 → Nat)
        ⟨2 * k.val + 1 + 8, by omega⟩ = 4 * k.val + 3 := by decide
  have hk := k.isLt
  have b0 : 4 * k.val < 16 := by omega
  have b1 : 4 * k.val + 1 < 16 := by omega
  have b2 : 4 * k.val + 2 < 16 := by omega
  have b3 : 4 * k.val + 3 < 16 := by omega
  simp only [wasm_i32x4_add_dpbusd_epi32, Bool.false_eq_true, if_false, wasm_i32x4_add,
    wasm_i32x4_dot_i16x8, wasm_i16x8_extend_low_i8x16, wasm_i16x8_extend_high_i8x16,
    wasm_i8x16_shuffle, c0, c1, c2, c3, b0, b1, b2, b3, if_true, lane_eq, s16_s8,
    s32_add_s32_left, s32_add_s32_right, dot4]
  congr 1
  ring

theorem u8_eq_s8_of_le (x : Int) (h : u8 x ≤ 127) : s8 x = u8 x := by
  unfold u8 at h ⊢
  unfold s8
  omega

theorem dot4_s8_eq_u8 (a b : Vec 16) (h : ∀ i, u8 (a i) ≤ 127) (k : Fin 4) :
    dot4 4 s8 s8 a b k = dot4 4 u8 s8 a b k := by
  simp only [dot4, u8_eq_s8_of_le _ (h _)]

theorem dot2_s8_eq_u8 (a b : Vec 16) (h : ∀ i, u8 (a i) ≤ 127) (j : Fin 8) :
    dot2 8 s8 s8 a b j = dot2 8 u8 s8 a b j := by
  simp only [dot2, u8_eq_s8_of_le _ (h _)]

theorem u7_mul_s8_range (x y : Int) (h : u8 x ≤ 127) :
    -16256 ≤ u8 x * s8 y ∧ u8 x * s8 y ≤ 16129 := by
  obtain ⟨h0, _⟩ := u8_range x
  obtain ⟨h2, h3⟩ := s8_range y
  constructor <;> nlinarith

theorem pairsFit16_of_le (a b : Vec 16) (h : ∀ i, u8 (a i) ≤ 127) : PairsFit16 8 a b := by
  intro j
  simp only [dot2]
  have h1 := u7_mul_s8_range (a ⟨2 * j.val, by omega⟩) (b ⟨2 * j.val, by omega⟩) (h _)
  have h2 :=
    u7_mul_s8_range (a ⟨2 * j.val + 1, by omega⟩) (b ⟨2 * j.val + 1, by omega⟩) (h _)
  omega

theorem signedPairsFit16_of_le (a b : Vec 16) (h : ∀ i, u8 (a i) ≤ 127) :
    SignedPairsFit16 a b := by
  intro j
  rw [dot2_s8_eq_u8 a b h j]
  exact (pairsFit16_of_le a b h j).2

/-- A sum over sixteen lanes, written out. -/
theorem sum_univ_sixteen (z : Vec 16) :
    ∑ i, z i = z 0 + z 1 + z 2 + z 3 + z 4 + z 5 + z 6 + z 7
      + z 8 + z 9 + z 10 + z 11 + z 12 + z 13 + z 14 + z 15 := by
  rw [Fin.sum_univ_castSucc, Fin.sum_univ_castSucc, Fin.sum_univ_castSucc,
    Fin.sum_univ_castSucc, Fin.sum_univ_castSucc, Fin.sum_univ_castSucc,
    Fin.sum_univ_castSucc, Fin.sum_univ_castSucc, Fin.sum_univ_eight]
  rfl

/-! ## Horizontal reducers -/

theorem m128_hadd_sum (x : Vec 4) (bias : Int) :
    m128_hadd x bias = s32 (bias + ∑ i, x i) := by
  simp only [m128_hadd, _mm_add_epi32, add_epi32, _mm_shuffle_epi32, _mm_cvtsi128_si32,
    Fin.sum_univ_four, s32_add_s32_left, s32_add_s32_right, s32_s32]
  norm_num
  simp only [Fin.reduceFinMk]
  congr 1
  ring

theorem m256_hadd_sum (y : Vec 8) (bias : Int) :
    m256_hadd y bias = s32 (bias + ∑ i, y i) := by
  simp only [m256_hadd, _mm_add_epi32, add_epi32, _mm_shuffle_epi32, _mm_cvtsi128_si32,
    _mm256_castsi256_si128, _mm256_extracti128_si256, _MM_PERM_BADC, _MM_PERM_CDAB,
    Fin.sum_univ_eight, s32_add_s32_left, s32_add_s32_right, s32_s32]
  norm_num
  simp only [Fin.reduceFinMk]
  congr 1
  ring

theorem m512_hadd_sum (z : Vec 16) (bias : Int) :
    m512_hadd z bias = s32 (bias + ∑ i, z i) := by
  simp only [m512_hadd, _mm512_reduce_add_epi32, reduce_add_step,
    sum_univ_sixteen, s32_add_s32_left, s32_add_s32_right, s32_s32]
  norm_num
  simp only [Fin.reduceFinMk]
  congr 1
  ring

theorem neon_m128_hadd_sum (USE_NEON : Nat) (x : Vec 4) (bias : Int) :
    neon_m128_hadd USE_NEON x bias = s32 (bias + ∑ i, x i) := by
  simp only [neon_m128_hadd, neon_m128_reduce_add_epi32, vaddvq_s32, Fin.sum_univ_four]
  split_ifs <;>
    simp only [s32_add_s32_left, s32_add_s32_right, s32_s32] <;>
    congr 1 <;> ring

theorem wasm_i32x4_hadd_sum (x : Vec 4) (bias : Int) :
    wasm_i32x4_hadd x bias = s32 (bias + ∑ i, x i) := by
  simp only [wasm_i32x4_hadd, wasm_i32x4_reduce_add, wasm_i32x4_extract_lane,
    Fin.sum_univ_four, s32_add_s32_left, s32_add_s32_right, s32_s32]
  congr 1
  ring

/-- C1: each x86 horizontal reducer returns the bias plus the sum of all 32-bit lanes of
its accumulator, in 32-bit two's-complement arithmetic: `m128_hadd` over 4 lanes,
`m256_hadd` over 8 lanes, `m512_hadd` over 16 lanes. -/
theorem hadd_eq_bias_add_lane_sum (x : Vec 4) (y : Vec 8) (z : Vec 16) (bias : Int) :
    m128_hadd x bias = s32 (bias + ∑ i, x i)
    ∧ m256_hadd y bias = s32 (bias + ∑ i, y i)
    ∧ m512_hadd z bias = s32 (bias + ∑ i, z i) :=
  ⟨m128_hadd_sum x bias, m256_hadd_sum y bias, m512_hadd_sum z bias⟩

theorem interleave_lane_sum (sum0 sum1 sum2 sum3 : Vec 16) (k j : Fin 4) :
    m512_hadd128x16_interleave sum0 sum1 sum2 sum3 ⟨4 * k.val + j.val, by omega⟩
      = s32 (∑ i : Fin 4, (![sum0, sum1, sum2, sum3] j) ⟨4 * k.val + i.val, by omega⟩) := by
  have hd0 : (4 * k.val) / 4 = k.val := by omega
  have hd1 : (4 * k.val + 1) / 4 = k.val := by omega
  have hd2 : (4 * k.val + 2) / 4 = k.val := by omega
  have hd3 : (4 * k.val + 3) / 4 = k.val := by omega
  have hm0 : (4 * k.val) % 4 = 0 := by omega
  have hm1 : (4 * k.val + 1) % 4 = 1 := by omega
  have hm2 : (4 * k.val + 2) % 4 = 2 := by omega
  have hm3 : (4 * k.val + 3) % 4 = 3 := by omega
  simp only [m512_hadd128x16_interleave, _mm512_add_epi32, add_epi32, _mm512_unpacklo_epi32,
    _mm512_unpackhi_epi32, _mm512_unpacklo_epi64, _mm512_unpackhi_epi64, Fin.sum_univ_four]
  fin_cases j <;>
    simp [show ((3 : Fin 4) : Nat) = 3 from rfl, hd0, hd1, hd2, hd3, hm0, hm1, hm2, hm3,
      s32_add_s32_left, s32_add_s32_right] <;>
    congr 1 <;> ring

/-- C2: lane `4k+j` of `m512_hadd128x16_interleave sum0 sum1 sum2 sum3` is the sum
(mod 2^32) of the four dwords `4k .. 4k+3` of `sumJ`: the results are grouped by 128-bit
block first and by accumulator index second. -/
theorem hadd128x16_interleave_lane (sum0 sum1 sum2 sum3 : Vec 16) (k j : Fin 4) :
    m512_hadd128x16_interleave sum0 sum1 sum2 sum3 ⟨4 * k.val + j.val, by omega⟩
      = s32 (∑ i : Fin 4, (![sum0, sum1, sum2, sum3] j) ⟨4 * k.val + i.val, by omega⟩) :=
  interleave_lane_sum sum0 sum1 sum2 sum3 k j

/-! ## Dot-accumulate on x86 -/

/-- C3 (amended): whenever no pair sum `a[2j]*b[2j] + a[2j+1]*b[2j+1]` (bytes of `a`
unsigned, bytes of `b` signed) leaves the signed 16-bit range, the manual multiply /
pair-add paths `m128_add_dpbusd_epi32`, `m256_add_dpbusd_epi32` (without `USE_VNNI`) and
`m512_add_dpbusd_epi32` (final `#else` branch) leave in every dword `k` the value
`acc[k] + (a[4k]*b[4k] + ... + a[4k+3]*b[4k+3])` reduced mod 2^32. -/
theorem manual_dpbusd_exact_of_pairs_fit
    (acc4 : Vec 4) (a4 b4 : Vec 16) (acc8 : Vec 8) (a8 b8 : Vec 32)
    (acc16 : Vec 16) (a16 b16 : Vec 64)
    (h4 : PairsFit16 8 a4 b4) (h8 : PairsFit16 16 a8 b8) (h16 : PairsFit16 32 a16 b16) :
    (∀ k, m128_add_dpbusd_epi32 acc4 a4 b4 k = s32 (acc4 k + dot4 4 u8 s8 a4 b4 k))
    ∧ (∀ k, m256_add_dpbusd_epi32 false acc8 a8 b8 k = s32 (acc8 k + dot4 8 u8 s8 a8 b8 k))
    ∧ (∀ k, m512_add_dpbusd_epi32 false false acc16 a16 b16 k
          = s32 (acc16 k + dot4 16 u8 s8 a16 b16 k)) :=
  ⟨m128_manual_exact acc4 a4 b4 h4, m256_manual_exact acc8 a8 b8 h8,
    m512_manual_exact acc16 a16 b16 h16⟩

/-- C3, an instance: all bytes of `a` and of `b` equal to 127, accumulator lanes 5. -/
theorem manual_dpbusd_exact_of_pairs_fit_witness :
    PairsFit16 8 (fun _ => 127) (fun _ => 127)
    ∧ PairsFit16 16 (fun _ => 127) (fun _ => 127)
    ∧ PairsFit16 32 (fun _ => 127) (fun _ => 127)
    ∧ m128_add_dpbusd_epi32 (fun _ => 5) (fun _ => 127) (fun _ => 127) 0
        = s32 (5 + dot4 4 u8 s8 (fun _ => 127) (fun _ => 127) 0) :=
  have h4 : PairsFit16 8 (fun _ => 127) (fun _ => 127) := by unfold PairsFit16; decide
  have h8 : PairsFit16 16 (fun _ => 127) (fun _ => 127) := by unfold PairsFit16; decide
  have h16 : PairsFit16 32 (fun _ => 127) (fun _ => 127) := by unfold PairsFit16; decide
  ⟨h4, h8, h16,
    (manual_dpbusd_exact_of_pairs_fit (fun _ => 5) _ _ (fun _ => 5) _ _ (fun _ => 5) _ _
      h4 h8 h16).1 0⟩

/-- C3 as stated fails: with every byte of `a` equal to 255 and every byte of `b` equal
to 127, each manual path leaves `65534` in dword 0 of a zero accumulator (both pair sums
`64770` saturate to `32767`), while the exact dot product is `129540`. -/
theorem manual_dpbusd_saturates :
    m128_add_dpbusd_epi32 (fun _ => 0) (fun _ => 255) (fun _ => 127) 0 = 65534
    ∧ s32 (0 + dot4 4 u8 s8 (fun _ => 255) (fun _ => 127) 0) = 129540
    ∧ m256_add_dpbusd_epi32 false (fun _ => 0) (fun _ => 255) (fun _ => 127) 0 = 65534
    ∧ s32 (0 + dot4 8 u8 s8 (fun _ => 255) (fun _ => 127) 0) = 129540
    ∧ m512_add_dpbusd_epi32 false false (fun _ => 0) (fun _ => 255) (fun _ => 127) 0 = 65534
    ∧ s32 (0 + dot4 16 u8 s8 (fun _ => 255) (fun _ => 127) 0) = 129540 := by
  decide

/-- C4 (amended): whenever no pair sum `a[2j]*b[2j] + a[2j+1]*b[2j+1]` (bytes of `a`
unsigned, bytes of `b` signed) leaves the signed 16-bit range, the `USE_VNNI` branch of
`m256_add_dpbusd_epi32` and of `m512_add_dpbusd_epi32` produces the same accumulator as
every manual branch of the same function. -/
theorem vnni_eq_manual_of_pairs_fit
    (acc8 : Vec 8) (a8 b8 : Vec 32) (acc16 : Vec 16) (a16 b16 : Vec 64) (f : Bool)
    (h8 : PairsFit16 16 a8 b8) (h16 : PairsFit16 32 a16 b16) :
    m256_add_dpbusd_epi32 true acc8 a8 b8 = m256_add_dpbusd_epi32 false acc8 a8 b8
    ∧ m512_add_dpbusd_epi32 true f acc16 a16 b16
        = m512_add_dpbusd_epi32 false false acc16 a16 b16
    ∧ m512_add_dpbusd_epi32 true f acc16 a16 b16
        = m512_add_dpbusd_epi32 false true acc16 a16 b16 := by
  refine ⟨?_, ?_, ?_⟩
  · funext k
    rw [m256_manual_exact acc8 a8 b8 h8 k]
    simp only [m256_add_dpbusd_epi32, _mm256_dpbusd_epi32, if_true, dpbusd_lane]
  · funext k
    rw [m512_manual_exact acc16 a16 b16 h16 k]
    simp only [m512_add_dpbusd_epi32, _mm512_dpbusd_epi32, if_true, dpbusd_lane]
  · funext k
    rw [m512_split_lane, ← m512_manual_lane, m512_manual_exact acc16 a16 b16 h16 k]
    simp only [m512_add_dpbusd_epi32, _mm512_dpbusd_epi32, if_true, dpbusd_lane]

/-- C4, an instance: all bytes of `a` and of `b` equal to 127, accumulator lanes 5. -/
theorem vnni_eq_manual_of_pairs_fit_witness :
    PairsFit16 16 (fun _ => 127) (fun _ => 127)
    ∧ PairsFit16 32 (fun _ => 127) (fun _ => 127)
    ∧ m256_add_dpbusd_epi32 true (fun _ => 5) (fun _ => 127) (fun _ => 127)
        = m256_add_dpbusd_epi32 false (fun _ => 5) (fun _ => 127) (fun _ => 127) :=
  have h8 : PairsFit16 16 (fun _ => 127) (fun _ => 127) := by unfold PairsFit16; decide
  have h16 : PairsFit16 32 (fun _ => 127) (fun _ => 127) := by unfold PairsFit16; decide
  ⟨h8, h16,
    (vnni_eq_manual_of_pairs_fit (fun _ => 5) _ _ (fun _ => 5) _ _ true h8 h16).1⟩

/-- C4 as stated fails: with every byte of `a` equal to 255 and every byte of `b` equal
to 127, the `USE_VNNI` branch leaves `129540` in dword 0 of a zero accumulator and every
manual branch leaves `65534`. -/
theorem vnni_differs_from_manual :
    m256_add_dpbusd_epi32 true (fun _ => 0) (fun _ => 255) (fun _ => 127) 0 = 129540
    ∧ m256_add_dpbusd_epi32 false (fun _ => 0) (fun _ => 255) (fun _ => 127) 0 = 65534
    ∧ m512_add_dpbusd_epi32 true false (fun _ => 0) (fun _ => 255) (fun _ => 127) 0 = 129540
    ∧ m512_add_dpbusd_epi32 false false (fun _ => 0) (fun _ => 255) (fun _ => 127) 0 = 65534
    ∧ m512_add_dpbusd_epi32 false true (fun _ => 0) (fun _ => 255) (fun _ => 127) 0
        = 65534 := by
  decide

/-- C5: the `USE_VNNI` branches of `m256_add_dpbusd_epi32` and `m512_add_dpbusd_epi32`
leave in every dword `k` exactly `acc[k] + Σ_{i=4k..4k+3} a[i]*b[i]` reduced mod 2^32,
the bytes of `a` read unsigned and the bytes of `b` read signed: no intermediate word
saturates or wraps. -/
theorem vnni_dpbusd_exact
    (acc8 : Vec 8) (a8 b8 : Vec 32) (acc16 : Vec 16) (a16 b16 : Vec 64) (f : Bool) :
    (∀ k, m256_add_dpbusd_epi32 true acc8 a8 b8 k = s32 (acc8 k + dot4 8 u8 s8 a8 b8 k))
    ∧ (∀ k, m512_add_dpbusd_epi32 true f acc16 a16 b16 k
          = s32 (acc16 k + dot4 16 u8 s8 a16 b16 k)) := by
  constructor
  · intro k
    simp only [m256_add_dpbusd_epi32, _mm256_dpbusd_epi32, if_true, dpbusd_lane]
  · intro k
    simp only [m512_add_dpbusd_epi32, _mm512_dpbusd_epi32, if_true, dpbusd_lane]

/-- C6: the split branch of `m512_add_dpbusd_epi32` (`USE_AVX512F` without `USE_VNNI`:
the two 256-bit halves processed separately and concatenated) yields the same value in
every one of the 16 dwords as the non-split `#else` branch. -/
theorem m512_split_eq_whole (acc : Vec 16) (a b : Vec 64) (k : Fin 16) :
    m512_add_dpbusd_epi32 false true acc a b k
      = m512_add_dpbusd_epi32 false false acc a b k := by
  rw [m512_split_lane, m512_manual_lane]

/-! ## Dot-accumulate on Arm and WebAssembly -/

/-- C7 (amended): for every accumulator and all 16-byte vectors `a` and `b`,
`dotprod_m128_add_dpbusd_epi32` leaves in every lane `k` the value
`acc[k] + Σ_{i=4k..4k+3} a[i]*b[i]` mod 2^32 with the bytes of `a` AND of `b` read as
signed bytes, without any condition on the input; `neon_m128_add_dpbusd_epi32` leaves
the same value whenever no pair sum `a[2j]*b[2j] + a[2j+1]*b[2j+1]` (signed readings)
exceeds 32767. -/
theorem arm_dpbusd_signed (acc : Vec 4) (a b : Vec 16) :
    (∀ k, dotprod_m128_add_dpbusd_epi32 acc a b k = s32 (acc k + dot4 4 s8 s8 a b k))
    ∧ (SignedPairsFit16 a b →
        ∀ k, neon_m128_add_dpbusd_epi32 acc a b k = s32 (acc k + dot4 4 s8 s8 a b k)) :=
  ⟨dotprod_lane acc a b, fun h => neon_exact acc a b h⟩

/-- C7, two instances.  With every byte of `a` equal to 200 (read `-56`) and every byte
of `b` equal to 3 the condition of the Arm fallback holds and its lane 0 is the signed
dot product added to 7.  With every byte of `a` and of `b` equal to `0x80` (read
`-128`), where that condition fails, lane 0 of the dot-product path is still the signed
dot product, `65536`. -/
theorem arm_dpbusd_signed_witness :
    SignedPairsFit16 (fun _ => 200) (fun _ => 3)
    ∧ neon_m128_add_dpbusd_epi32 (fun _ => 7) (fun _ => 200) (fun _ => 3) 0
        = s32 (7 + dot4 4 s8 s8 (fun _ => 200) (fun _ => 3) 0)
    ∧ ¬ SignedPairsFit16 (fun _ => 128) (fun _ => 128)
    ∧ dotprod_m128_add_dpbusd_epi32 (fun _ => 0) (fun _ => 128) (fun _ => 128) 0
        = s32 (0 + dot4 4 s8 s8 (fun _ => 128) (fun _ => 128) 0)
    ∧ s32 (0 + dot4 4 s8 s8 (fun _ => 128) (fun _ => 128) 0) = 65536 :=
  have h : SignedPairsFit16 (fun _ => 200) (fun _ => 3) := by unfold SignedPairsFit16; decide
  have n : ¬ SignedPairsFit16 (fun _ => 128) (fun _ => 128) := by
    unfold SignedPairsFit16; decide
  ⟨h, (arm_dpbusd_signed (fun _ => 7) (fun _ => 200) (fun _ => 3)).2 h 0, n,
    (arm_dpbusd_signed (fun _ => 0) (fun _ => 128) (fun _ => 128)).1 0, by decide⟩

/-- C7 as stated fails: with every byte of `a` equal to 200 and every byte of `b` equal
to 1, both Arm paths leave `-224` in lane 0 of a zero accumulator, while the dot
product with `a` read unsigned is `800`. -/
theorem arm_dpbusd_reads_a_signed :
    neon_m128_add_dpbusd_epi32 (fun _ => 0) (fun _ => 200) (fun _ => 1) 0 = -224
    ∧ dotprod_m128_add_dpbusd_epi32 (fun _ => 0) (fun _ => 200) (fun _ => 1) 0 = -224
    ∧ s32 (0 + dot4 4 u8 s8 (fun _ => 200) (fun _ => 1) 0) = 800 := by
  decide

/-- C8 (amended): whenever no pair sum `a[2j]*b[2j] + a[2j+1]*b[2j+1]` (both operands
read as signed bytes) exceeds 32767, that is unless `a[2j] = a[2j+1] = b[2j] = b[2j+1]
= -128` for some `j`, the dot-product-extension path and the manual Arm fallback
produce the same accumulator in all four lanes. -/
theorem dotprod_eq_neon_of_pairs_fit (acc : Vec 4) (a b : Vec 16)
    (h : SignedPairsFit16 a b) :
    dotprod_m128_add_dpbusd_epi32 acc a b = neon_m128_add_dpbusd_epi32 acc a b := by
  funext k
  rw [dotprod_lane, neon_exact acc a b h]

/-- C8, an instance: every byte of `a` is 100, every byte of `b` is 156 (read `-100`). -/
theorem dotprod_eq_neon_of_pairs_fit_witness :
    SignedPairsFit16 (fun _ => 100) (fun _ => 156)
    ∧ dotprod_m128_add_dpbusd_epi32 (fun _ => 7) (fun _ => 100) (fun _ => 156)
        = neon_m128_add_dpbusd_epi32 (fun _ => 7) (fun _ => 100) (fun _ => 156) :=
  have h : SignedPairsFit16 (fun _ => 100) (fun _ => 156) := by
    unfold SignedPairsFit16; decide
  ⟨h, dotprod_eq_neon_of_pairs_fit (fun _ => 7) _ _ h⟩

/-- C8 as stated fails: with every byte of `a` and of `b` equal to `0x80` (read `-128`),
the dot-product-extension path leaves `65536` in lane 0 of a zero accumulator, and the
manual fallback, whose 16-bit pair sums `32768` wrap to `-32768`, leaves `-65536`. -/
theorem dotprod_differs_from_neon :
    dotprod_m128_add_dpbusd_epi32 (fun _ => 0) (fun _ => 128) (fun _ => 128) 0 = 65536
    ∧ neon_m128_add_dpbusd_epi32 (fun _ => 0) (fun _ => 128) (fun _ => 128) 0 = -65536 := by
  decide

/-- C9 (amended): the non-relaxed branch of `wasm_i32x4_add_dpbusd_epi32` leaves in
every lane `k` the value `acc[k] + Σ_{i=4k..4k+3} a[i]*b[i]` mod 2^32 where `a[i]` and
`b[i]` are both read as signed bytes. -/
theorem wasm_dpbusd_signed (f : Vec 16 → Vec 16 → Vec 4 → Vec 4) (acc : Vec 4)
    (a b : Vec 16) (k : Fin 4) :
    wasm_i32x4_add_dpbusd_epi32 false f acc a b k = s32 (acc k + dot4 4 s8 s8 a b k) :=
  wasm_lane f acc a b k

/-- C9 as stated fails: with every byte of `a` equal to 200 and every byte of `b` equal
to 1, the non-relaxed branch leaves `-224` in lane 0 of a zero accumulator, while the
dot product with `a` read unsigned is `800`. -/
theorem wasm_dpbusd_reads_a_signed :
    wasm_i32x4_add_dpbusd_epi32 false (fun _ _ c => c) (fun _ => 0) (fun _ => 200)
        (fun _ => 1) 0 = -224
    ∧ s32 (0 + dot4 4 u8 s8 (fun _ => 200) (fun _ => 1) 0) = 800 := by
  decide

/-! ## Agreement of the 128-bit families -/

/-- C10 (amended): for all 16-byte vectors `a` and `b` such that every byte of `a`, read
unsigned, is at most 127, the value `reduce(accumulate(0,a,b),0)` is the same for the
three 128-bit families: `m128_hadd` after `m128_add_dpbusd_epi32`, `neon_m128_hadd`
after `neon_m128_add_dpbusd_epi32`, `wasm_i32x4_hadd` after the non-relaxed
`wasm_i32x4_add_dpbusd_epi32`, each from an all-zero accumulator. -/
theorem families128_agree_of_a_le_127 (a b : Vec 16) (USE_NEON : Nat)
    (f : Vec 16 → Vec 16 → Vec 4 → Vec 4) (h : ∀ i, u8 (a i) ≤ 127) :
    m128_hadd (m128_add_dpbusd_epi32 (fun _ => 0) a b) 0
      = neon_m128_hadd USE_NEON (neon_m128_add_dpbusd_epi32 (fun _ => 0) a b) 0
    ∧ m128_hadd (m128_add_dpbusd_epi32 (fun _ => 0) a b) 0
      = wasm_i32x4_hadd (wasm_i32x4_add_dpbusd_epi32 false f (fun _ => 0) a b) 0 := by
  have e1 : neon_m128_add_dpbusd_epi32 (fun _ => 0) a b
      = m128_add_dpbusd_epi32 (fun _ => 0) a b := by
    funext k
    rw [neon_exact _ a b (signedPairsFit16_of_le a b h), dot4_s8_eq_u8 a b h,
      m128_manual_exact _ a b (pairsFit16_of_le a b h)]
  have e2 : wasm_i32x4_add_dpbusd_epi32 false f (fun _ => 0) a b
      = m128_add_dpbusd_epi32 (fun _ => 0) a b := by
    funext k
    rw [wasm_lane, dot4_s8_eq_u8 a b h, m128_manual_exact _ a b (pairsFit16_of_le a b h)]
  rw [e1, e2, m128_hadd_sum, neon_m128_hadd_sum, wasm_i32x4_hadd_sum]
  exact ⟨rfl, rfl⟩

/-- C10, an instance: every byte of `a` is 127, every byte of `b` is `0x80` (read
`-128`). -/
theorem families128_agree_of_a_le_127_witness :
    (∀ i : Fin 16, u8 ((fun _ => 127 : Vec 16) i) ≤ 127)
    ∧ m128_hadd (m128_add_dpbusd_epi32 (fun _ => 0) (fun _ => 127) (fun _ => 128)) 0
      = neon_m128_hadd 8 (neon_m128_add_dpbusd_epi32 (fun _ => 0) (fun _ => 127)
          (fun _ => 128)) 0 :=
  have h : ∀ i : Fin 16, u8 ((fun _ => 127 : Vec 16) i) ≤ 127 := by decide
  ⟨h, (families128_agree_of_a_le_127 (fun _ => 127) (fun _ => 128) 8 (fun _ _ c => c) h).1⟩

/-- C10 as stated fails: with every byte of `a` equal to 200 and every byte of `b` equal
to 1, the x86 family returns `3200` and the Arm and WebAssembly families return
`-896`. -/
theorem families128_disagree :
    m128_hadd (m128_add_dpbusd_epi32 (fun _ => 0) (fun _ => 200) (fun _ => 1)) 0 = 3200
    ∧ neon_m128_hadd 8 (neon_m128_add_dpbusd_epi32 (fun _ => 0) (fun _ => 200)
        (fun _ => 1)) 0 = -896
    ∧ wasm_i32x4_hadd (wasm_i32x4_add_dpbusd_epi32 false (fun _ _ c => c) (fun _ => 0)
        (fun _ => 200) (fun _ => 1)) 0 = -896 := by
  decide


theorem s32_of_fits (x : Int) (h : -2147483648 ≤ x ∧ x ≤ 2147483647) : s32 x = x := by
  unfold s32; omega

/-- C11: with `a = [1,2,...,16]` as unsigned bytes, `b = [1,-1,1,-1,...]` as signed bytes
and an all-zero accumulator, `m128_add_dpbusd_epi32` leaves an accumulator whose four
lanes sum to `-8` (each lane is `-2`), and `m128_hadd` of that accumulator with bias 100
returns `92`. -/
theorem scenario_alternating_signs :
    m128_add_dpbusd_epi32 (fun _ => 0) bytes_1_to_16 bytes_alternating = (fun _ => -2)
    ∧ ∑ k, m128_add_dpbusd_epi32 (fun _ => 0) bytes_1_to_16 bytes_alternating k = -8
    ∧ m128_hadd (m128_add_dpbusd_epi32 (fun _ => 0) bytes_1_to_16 bytes_alternating) 100
        = 92 := by
  have h : m128_add_dpbusd_epi32 (fun _ => 0) bytes_1_to_16 bytes_alternating
      = (fun _ => -2) := by decide
  refine ⟨h, ?_, ?_⟩
  · rw [h]; decide
  · rw [h]; decide

/-! ## Reducing a zero accumulator -/

/-- C12: for every 32-bit bias `k`, reducing the all-zero accumulator returns exactly `k`,
for every reducer: `m128_hadd`, `m256_hadd`, `m512_hadd`, `neon_m128_hadd` (either
branch of its reduction) and `wasm_i32x4_hadd`. -/
theorem hadd_zero_eq_bias (k : Int) (USE_NEON : Nat)
    (h : -2147483648 ≤ k ∧ k ≤ 2147483647) :
    m128_hadd (fun _ => 0) k = k
    ∧ m256_hadd (fun _ => 0) k = k
    ∧ m512_hadd (fun _ => 0) k = k
    ∧ neon_m128_hadd USE_NEON (fun _ => 0) k = k
    ∧ wasm_i32x4_hadd (fun _ => 0) k = k := by
  rw [m128_hadd_sum, m256_hadd_sum, m512_hadd_sum, neon_m128_hadd_sum, wasm_i32x4_hadd_sum]
  simp only [Finset.sum_const_zero, add_zero, s32_of_fits k h, and_self]

/-- C12, an instance: the most negative bias. -/
theorem hadd_zero_eq_bias_witness :
    (-2147483648 ≤ (-2147483648 : Int) ∧ (-2147483648 : Int) ≤ 2147483647)
    ∧ m512_hadd (fun _ => 0) (-2147483648) = -2147483648 :=
  ⟨by decide, (hadd_zero_eq_bias (-2147483648) 8 (by decide)).2.2.1⟩

/-! ## Order of the permute-and-add steps -/

theorem pairsFit16_of_u7 (n : Nat) (a b : Vec (2 * n)) (h : ∀ i, u8 (a i) ≤ 127) :
    PairsFit16 n a b := by
  intro j
  simp only [dot2]
  have h1 := u7_mul_s8_range (a ⟨2 * j.val, by omega⟩) (b ⟨2 * j.val, by omega⟩) (h _)
  have h2 :=
    u7_mul_s8_range (a ⟨2 * j.val + 1, by omega⟩) (b ⟨2 * j.val + 1, by omega⟩) (h _)
  omega

theorem m512_nonvnni_lane (f : Bool) (acc : Vec 16) (a b : Vec 64) (k : Fin 16) :
    m512_add_dpbusd_epi32 false f acc a b k
      = s32 (acc k + (sat16 (dot2 32 u8 s8 a b ⟨2 * k.val, by omega⟩)
          + sat16 (dot2 32 u8 s8 a b ⟨2 * k.val + 1, by omega⟩))) := by
  cases f
  · exact m512_manual_lane acc a b k
  · exact m512_split_lane acc a b k

theorem m512_nonvnni_exact (f : Bool) (acc : Vec 16) (a b : Vec 64) (h : PairsFit16 32 a b)
    (k : Fin 16) :
    m512_add_dpbusd_epi32 false f acc a b k = s32 (acc k + dot4 16 u8 s8 a b k) := by
  rw [m512_nonvnni_lane, dot4_eq_dot2_64, sat16_of_fits _ (h _), sat16_of_fits _ (h _)]

theorem m256_vnni_lane (acc : Vec 8) (a b : Vec 32) (k : Fin 8) :
    m256_add_dpbusd_epi32 true acc a b k = s32 (acc k + dot4 8 u8 s8 a b k) := by
  simp only [m256_add_dpbusd_epi32, _mm256_dpbusd_epi32, if_true, dpbusd_lane]

theorem m512_vnni_lane (f : Bool) (acc : Vec 16) (a b : Vec 64) (k : Fin 16) :
    m512_add_dpbusd_epi32 true f acc a b k = s32 (acc k + dot4 16 u8 s8 a b k) := by
  simp only [m512_add_dpbusd_epi32, _mm512_dpbusd_epi32, if_true, dpbusd_lane]

/-- C14: if every byte of `a` is in `0..127`, no 16-bit intermediate of the manual x86
paths saturates: `m128_add_dpbusd_epi32`, `m256_add_dpbusd_epi32` (without `USE_VNNI`)
and both non-VNNI branches of `m512_add_dpbusd_epi32` leave in every lane `k` exactly
`acc[k] + Σ_{i=4k..4k+3} a[i]*b[i]` mod 2^32, and they coincide with the `USE_VNNI`
branches. -/
theorem manual_dpbusd_exact_of_a_le_127
    (acc4 : Vec 4) (a4 b4 : Vec 16) (acc8 : Vec 8) (a8 b8 : Vec 32)
    (acc16 : Vec 16) (a16 b16 : Vec 64) (f g : Bool)
    (h4 : ∀ i, u8 (a4 i) ≤ 127) (h8 : ∀ i, u8 (a8 i) ≤ 127)
    (h16 : ∀ i, u8 (a16 i) ≤ 127) :
    (∀ k, m128_add_dpbusd_epi32 acc4 a4 b4 k = s32 (acc4 k + dot4 4 u8 s8 a4 b4 k))
    ∧ (∀ k, m256_add_dpbusd_epi32 false acc8 a8 b8 k = s32 (acc8 k + dot4 8 u8 s8 a8 b8 k))
    ∧ (∀ k, m512_add_dpbusd_epi32 false f acc16 a16 b16 k
          = s32 (acc16 k + dot4 16 u8 s8 a16 b16 k))
    ∧ m256_add_dpbusd_epi32 false acc8 a8 b8 = m256_add_dpbusd_epi32 true acc8 a8 b8
    ∧ m512_add_dpbusd_epi32 false f acc16 a16 b16
        = m512_add_dpbusd_epi32 true g acc16 a16 b16 := by
  have p4 := pairsFit16_of_u7 8 a4 b4 h4
  have p8 := pairsFit16_of_u7 16 a8 b8 h8
  have p16 := pairsFit16_of_u7 32 a16 b16 h16
  refine ⟨m128_manual_exact acc4 a4 b4 p4, m256_manual_exact acc8 a8 b8 p8,
    m512_nonvnni_exact f acc16 a16 b16 p16, ?_, ?_⟩
  · funext k
    rw [m256_manual_exact acc8 a8 b8 p8, m256_vnni_lane]
  · funext k
    rw [m512_nonvnni_exact f acc16 a16 b16 p16, m512_vnni_lane]

/-- C14, an instance: every byte of `a` is 127, every byte of `b` is `0x80` (read
`-128`), the accumulator lanes are 5. -/
theorem manual_dpbusd_exact_of_a_le_127_witness :
    (∀ i : Fin 16, u8 ((fun _ => 127 : Vec 16) i) ≤ 127)
    ∧ (∀ i : Fin 32, u8 ((fun _ => 127 : Vec 32) i) ≤ 127)
    ∧ (∀ i : Fin 64, u8 ((fun _ => 127 : Vec 64) i) ≤ 127)
    ∧ m512_add_dpbusd_epi32 false true (fun _ => 5) (fun _ => 127) (fun _ => 128)
        = m512_add_dpbusd_epi32 true true (fun _ => 5) (fun _ => 127) (fun _ => 128) :=
  have h4 : ∀ i : Fin 16, u8 ((fun _ => 127 : Vec 16) i) ≤ 127 := by decide
  have h8 : ∀ i : Fin 32, u8 ((fun _ => 127 : Vec 32) i) ≤ 127 := by decide
  have h16 : ∀ i : Fin 64, u8 ((fun _ => 127 : Vec 64) i) ≤ 127 := by decide
  ⟨h4, h8, h16,
    (manual_dpbusd_exact_of_a_le_127 (fun _ => 5) _ (fun _ => 128) (fun _ => 5) _
      (fun _ => 128) (fun _ => 5) _ (fun _ => 128) true true h4 h8 h16).2.2.2.2⟩

/-- C15: if every byte of `a` is in `0..127`, the Arm fallback, the Arm dot-product path
and the non-relaxed WebAssembly path each leave in lane `k` exactly
`acc[k] + Σ_{i=4k..4k+3} a[i]*b[i]` mod 2^32 (`a` read unsigned, `b` signed), so they
agree lane for lane with `m128_add_dpbusd_epi32`. -/
theorem arm_wasm_exact_of_a_le_127 (acc : Vec 4) (a b : Vec 16)
    (f : Vec 16 → Vec 16 → Vec 4 → Vec 4) (h : ∀ i, u8 (a i) ≤ 127) :
    (∀ k, neon_m128_add_dpbusd_epi32 acc a b k = s32 (acc k + dot4 4 u8 s8 a b k))
    ∧ (∀ k, dotprod_m128_add_dpbusd_epi32 acc a b k = s32 (acc k + dot4 4 u8 s8 a b k))
    ∧ (∀ k, wasm_i32x4_add_dpbusd_epi32 false f acc a b k
          = s32 (acc k + dot4 4 u8 s8 a b k))
    ∧ neon_m128_add_dpbusd_epi32 acc a b = m128_add_dpbusd_epi32 acc a b
    ∧ dotprod_m128_add_dpbusd_epi32 acc a b = m128_add_dpbusd_epi32 acc a b
    ∧ wasm_i32x4_add_dpbusd_epi32 false f acc a b = m128_add_dpbusd_epi32 acc a b := by
  have n1 : ∀ k, neon_m128_add_dpbusd_epi32 acc a b k = s32 (acc k + dot4 4 u8 s8 a b k) :=
    fun k => by rw [neon_exact acc a b (signedPairsFit16_of_le a b h), dot4_s8_eq_u8 a b h]
  have d1 : ∀ k, dotprod_m128_add_dpbusd_epi32 acc a b k
      = s32 (acc k + dot4 4 u8 s8 a b k) :=
    fun k => by rw [dotprod_lane, dot4_s8_eq_u8 a b h]
  have w1 : ∀ k, wasm_i32x4_add_dpbusd_epi32 false f acc a b k
      = s32 (acc k + dot4 4 u8 s8 a b k) :=
    fun k => by rw [wasm_lane, dot4_s8_eq_u8 a b h]
  have m1 := m128_manual_exact acc a b (pairsFit16_of_le a b h)
  refine ⟨n1, d1, w1, ?_, ?_, ?_⟩
  · funext k; rw [n1, m1]
  · funext k; rw [d1, m1]
  · funext k; rw [w1, m1]

/-- C15, an instance: every byte of `a` is 127, every byte of `b` is `0x80` (read
`-128`), the accumulator lanes are 5. -/
theorem arm_wasm_exact_of_a_le_127_witness :
    (∀ i : Fin 16, u8 ((fun _ => 127 : Vec 16) i) ≤ 127)
    ∧ neon_m128_add_dpbusd_epi32 (fun _ => 5) (fun _ => 127) (fun _ => 128)
        = m128_add_dpbusd_epi32 (fun _ => 5) (fun _ => 127) (fun _ => 128) :=
  have h : ∀ i : Fin 16, u8 ((fun _ => 127 : Vec 16) i) ≤ 127 := by decide
  ⟨h, (arm_wasm_exact_of_a_le_127 (fun _ => 5) _ (fun _ => 128) (fun _ _ c => c)
    h).2.2.2.1⟩

theorem sat_dot4_eq_16 (a b : Vec 16) (k : Fin 4) :
    sat_dot4 4 a b k = sat16 (dot2 8 u8 s8 a b ⟨2 * k.val, by omega⟩)
      + sat16 (dot2 8 u8 s8 a b ⟨2 * k.val + 1, by omega⟩) := by
  simp only [sat_dot4, dot2]
  ring_nf

theorem sat_dot4_eq_32 (a b : Vec 32) (k : Fin 8) :
    sat_dot4 8 a b k = sat16 (dot2 16 u8 s8 a b ⟨2 * k.val, by omega⟩)
      + sat16 (dot2 16 u8 s8 a b ⟨2 * k.val + 1, by omega⟩) := by
  simp only [sat_dot4, dot2]
  ring_nf

theorem sat_dot4_eq_64 (a b : Vec 64) (k : Fin 16) :
    sat_dot4 16 a b k = sat16 (dot2 32 u8 s8 a b ⟨2 * k.val, by omega⟩)
      + sat16 (dot2 32 u8 s8 a b ⟨2 * k.val + 1, by omega⟩) := by
  simp only [sat_dot4, dot2]
  ring_nf

/-- C16: for all inputs, the manual x86 paths (`m128_add_dpbusd_epi32`, the non-VNNI
branch of `m256_add_dpbusd_epi32`, both non-VNNI branches of `m512_add_dpbusd_epi32`)
leave in lane `k` exactly
`acc[k] + sat16(a[4k]*b[4k] + a[4k+1]*b[4k+1]) + sat16(a[4k+2]*b[4k+2] + a[4k+3]*b[4k+3])`
mod 2^32, `a` read unsigned and `b` signed: each adjacent pair of byte products is
saturated to 16 bits before being widened. -/
theorem manual_dpbusd_saturating_formula
    (acc4 : Vec 4) (a4 b4 : Vec 16) (acc8 : Vec 8) (a8 b8 : Vec 32)
    (acc16 : Vec 16) (a16 b16 : Vec 64) (f : Bool) :
    (∀ k, m128_add_dpbusd_epi32 acc4 a4 b4 k = s32 (acc4 k + sat_dot4 4 a4 b4 k))
    ∧ (∀ k, m256_add_dpbusd_epi32 false acc8 a8 b8 k = s32 (acc8 k + sat_dot4 8 a8 b8 k))
    ∧ (∀ k, m512_add_dpbusd_epi32 false f acc16 a16 b16 k
          = s32 (acc16 k + sat_dot4 16 a16 b16 k)) := by
  refine ⟨fun k => ?_, fun k => ?_, fun k => ?_⟩
  · rw [m128_manual_lane, sat_dot4_eq_16]
  · rw [m256_manual_lane, sat_dot4_eq_32]
  · rw [m512_nonvnni_lane, sat_dot4_eq_64]


/-! ## Signed readings on Arm and WebAssembly -/

/-- C17: for all inputs, the non-relaxed `wasm_i32x4_add_dpbusd_epi32` and
`dotprod_m128_add_dpbusd_epi32` both leave in lane `k` exactly
`acc[k] + Σ_{i=4k..4k+3} s8(a[i])*s8(b[i])` mod 2^32, both operands read as signed
bytes; the two paths agree on every input, and lane `k` depends only on bytes
`4k .. 4k+3` of `a` and `b`. -/
theorem wasm_dotprod_signed_formula (f : Vec 16 → Vec 16 → Vec 4 → Vec 4) (acc : Vec 4)
    (a b : Vec 16) :
    (∀ k, wasm_i32x4_add_dpbusd_epi32 false f acc a b k = s32 (acc k + dot4 4 s8 s8 a b k))
    ∧ (∀ k, dotprod_m128_add_dpbusd_epi32 acc a b k = s32 (acc k + dot4 4 s8 s8 a b k))
    ∧ wasm_i32x4_add_dpbusd_epi32 false f acc a b = dotprod_m128_add_dpbusd_epi32 acc a b
    ∧ (∀ (a' b' : Vec 16) (k : Fin 4),
        (∀ i : Fin 4, a' ⟨4 * k.val + i.val, by omega⟩ = a ⟨4 * k.val + i.val, by omega⟩
          ∧ b' ⟨4 * k.val + i.val, by omega⟩ = b ⟨4 * k.val + i.val, by omega⟩) →
        wasm_i32x4_add_dpbusd_epi32 false f acc a' b' k
            = wasm_i32x4_add_dpbusd_epi32 false f acc a b k
          ∧ dotprod_m128_add_dpbusd_epi32 acc a' b' k
            = dotprod_m128_add_dpbusd_epi32 acc a b k) := by
  refine ⟨wasm_lane f acc a b, dotprod_lane acc a b, ?_, ?_⟩
  · funext k
    rw [wasm_lane, dotprod_lane]
  · intro a' b' k h
    have h0 := h 0
    have h1 := h 1
    have h2 := h 2
    have h3 := h 3
    simp only [Fin.val_zero, Fin.val_one, Fin.val_two, add_zero,
      show ((3 : Fin 4) : Nat) = 3 from rfl] at h0 h1 h2 h3
    have e : dot4 4 s8 s8 a' b' k = dot4 4 s8 s8 a b k := by
      simp only [dot4, h0.1, h0.2, h1.1, h1.2, h2.1, h2.2, h3.1, h3.2]
    rw [wasm_lane, wasm_lane, dotprod_lane, dotprod_lane, e]
    exact ⟨rfl, rfl⟩

/-- C17, an instance: `a` is 200 on bytes `0..3` and 0 elsewhere, `a'` is 200
everywhere; lane 0 does not tell them apart. -/
theorem wasm_dotprod_signed_formula_witness :
    (∀ i : Fin 4,
      (fun _ => 200 : Vec 16) ⟨4 * (0 : Fin 4).val + i.val, by omega⟩
          = (fun j => if j.val < 4 then 200 else 0 : Vec 16)
              ⟨4 * (0 : Fin 4).val + i.val, by omega⟩
        ∧ (fun _ => 3 : Vec 16) ⟨4 * (0 : Fin 4).val + i.val, by omega⟩
          = (fun _ => 3 : Vec 16) ⟨4 * (0 : Fin 4).val + i.val, by omega⟩)
    ∧ wasm_i32x4_add_dpbusd_epi32 false (fun _ _ c => c) (fun _ => 7) (fun _ => 200)
          (fun _ => 3) 0
        = wasm_i32x4_add_dpbusd_epi32 false (fun _ _ c => c) (fun _ => 7)
            (fun j => if j.val < 4 then 200 else 0) (fun _ => 3) 0 :=
  have h : ∀ i : Fin 4,
      (fun _ => 200 : Vec 16) ⟨4 * (0 : Fin 4).val + i.val, by omega⟩
          = (fun j => if j.val < 4 then 200 else 0 : Vec 16)
              ⟨4 * (0 : Fin 4).val + i.val, by omega⟩
        ∧ (fun _ => 3 : Vec 16) ⟨4 * (0 : Fin 4).val + i.val, by omega⟩
          = (fun _ => 3 : Vec 16) ⟨4 * (0 : Fin 4).val + i.val, by omega⟩ := by decide
  ⟨h, ((wasm_dotprod_signed_formula (fun _ _ c => c) (fun _ => 7)
    (fun j => if j.val < 4 then 200 else 0) (fun _ => 3)).2.2.2 (fun _ => 200) (fun _ => 3) 0
    h).1⟩


/-! ## The accumulator enters additively -/

theorem u8_zero : u8 0 = 0 := by decide

theorem s8_zero : s8 0 = 0 := by decide

theorem s16_zero : s16 0 = 0 := by decide

theorem sat16_zero : sat16 0 = 0 := by decide

theorem s32_zero_add (acc x : Int) : s32 (acc + s32 (0 + x)) = s32 (acc + x) := by
  rw [zero_add, s32_add_s32_right]

theorem m128_additive (acc : Vec 4) (a b : Vec 16) (k : Fin 4) :
    m128_add_dpbusd_epi32 acc a b k
      = s32 (acc k + m128_add_dpbusd_epi32 (fun _ => 0) a b k) := by
  rw [m128_manual_lane, m128_manual_lane, s32_zero_add]

theorem m256_additive (v : Bool) (acc : Vec 8) (a b : Vec 32) (k : Fin 8) :
    m256_add_dpbusd_epi32 v acc a b k
      = s32 (acc k + m256_add_dpbusd_epi32 v (fun _ => 0) a b k) := by
  cases v
  · rw [m256_manual_lane, m256_manual_lane, s32_zero_add]
  · rw [m256_vnni_lane, m256_vnni_lane, s32_zero_add]

theorem m512_additive (v f : Bool) (acc : Vec 16) (a b : Vec 64) (k : Fin 16) :
    m512_add_dpbusd_epi32 v f acc a b k
      = s32 (acc k + m512_add_dpbusd_epi32 v f (fun _ => 0) a b k) := by
  cases v
  · rw [m512_nonvnni_lane, m512_nonvnni_lane, s32_zero_add]
  · rw [m512_vnni_lane, m512_vnni_lane, s32_zero_add]

theorem neon_additive (acc : Vec 4) (a b : Vec 16) (k : Fin 4) :
    neon_m128_add_dpbusd_epi32 acc a b k
      = s32 (acc k + neon_m128_add_dpbusd_epi32 (fun _ => 0) a b k) := by
  rw [neon_lane, neon_lane, s32_zero_add]

theorem dotprod_additive (acc : Vec 4) (a b : Vec 16) (k : Fin 4) :
    dotprod_m128_add_dpbusd_epi32 acc a b k
      = s32 (acc k + dotprod_m128_add_dpbusd_epi32 (fun _ => 0) a b k) := by
  rw [dotprod_lane, dotprod_lane, s32_zero_add]

theorem wasm_additive (f : Vec 16 → Vec 16 → Vec 4 → Vec 4) (acc : Vec 4) (a b : Vec 16)
    (k : Fin 4) :
    wasm_i32x4_add_dpbusd_epi32 false f acc a b k
      = s32 (acc k + wasm_i32x4_add_dpbusd_epi32 false f (fun _ => 0) a b k) := by
  rw [wasm_lane, wasm_lane, s32_zero_add]

theorem m128_zero (acc : Vec 4) (c : Vec 16) (k : Fin 4) :
    m128_add_dpbusd_epi32 acc (fun _ => 0) c k = s32 (acc k)
    ∧ m128_add_dpbusd_epi32 acc c (fun _ => 0) k = s32 (acc k) := by
  constructor <;> rw [m128_manual_lane] <;>
    simp only [dot2, u8_zero, s8_zero, zero_mul, mul_zero, add_zero, sat16_zero]

theorem m256_zero (v : Bool) (acc : Vec 8) (c : Vec 32) (k : Fin 8) :
    m256_add_dpbusd_epi32 v acc (fun _ => 0) c k = s32 (acc k)
    ∧ m256_add_dpbusd_epi32 v acc c (fun _ => 0) k = s32 (acc k) := by
  cases v
  · constructor <;> rw [m256_manual_lane] <;>
      simp only [dot2, u8_zero, s8_zero, zero_mul, mul_zero, add_zero, sat16_zero]
  · constructor <;> rw [m256_vnni_lane] <;>
      simp only [dot4, u8_zero, s8_zero, zero_mul, mul_zero, add_zero]

theorem m512_zero (v f : Bool) (acc : Vec 16) (c : Vec 64) (k : Fin 16) :
    m512_add_dpbusd_epi32 v f acc (fun _ => 0) c k = s32 (acc k)
    ∧ m512_add_dpbusd_epi32 v f acc c (fun _ => 0) k = s32 (acc k) := by
  cases v
  · constructor <;> rw [m512_nonvnni_lane] <;>
      simp only [dot2, u8_zero, s8_zero, zero_mul, mul_zero, add_zero, sat16_zero]
  · constructor <;> rw [m512_vnni_lane] <;>
      simp only [dot4, u8_zero, s8_zero, zero_mul, mul_zero, add_zero]

theorem neon_zero (acc : Vec 4) (c : Vec 16) (k : Fin 4) :
    neon_m128_add_dpbusd_epi32 acc (fun _ => 0) c k = s32 (acc k)
    ∧ neon_m128_add_dpbusd_epi32 acc c (fun _ => 0) k = s32 (acc k) := by
  constructor <;> rw [neon_lane] <;>
    simp only [dot2, s8_zero, zero_mul, mul_zero, add_zero, s16_zero]

theorem dotprod_zero (acc : Vec 4) (c : Vec 16) (k : Fin 4) :
    dotprod_m128_add_dpbusd_epi32 acc (fun _ => 0) c k = s32 (acc k)
    ∧ dotprod_m128_add_dpbusd_epi32 acc c (fun _ => 0) k = s32 (acc k) := by
  constructor <;> rw [dotprod_lane] <;>
    simp only [dot4, s8_zero, zero_mul, mul_zero, add_zero]

theorem wasm_zero (f : Vec 16 → Vec 16 → Vec 4 → Vec 4) (acc : Vec 4) (c : Vec 16)
    (k : Fin 4) :
    wasm_i32x4_add_dpbusd_epi32 false f acc (fun _ => 0) c k = s32 (acc k)
    ∧ wasm_i32x4_add_dpbusd_epi32 false f acc c (fun _ => 0) k = s32 (acc k) := by
  constructor <;> rw [wasm_lane] <;>
    simp only [dot4, s8_zero, zero_mul, mul_zero, add_zero]

/-- C18: the accumulator enters every dot-accumulate path only additively.  For every
path `f` (`m128_add_dpbusd_epi32`; `m256_add_dpbusd_epi32` and `m512_add_dpbusd_epi32`
in each of their branches; `neon_m128_add_dpbusd_epi32`;
`dotprod_m128_add_dpbusd_epi32`; the non-relaxed `wasm_i32x4_add_dpbusd_epi32`) and all
`acc`, `a`, `b`, lane `k` of `f(acc,a,b)` is `acc[k]` plus lane `k` of `f(0,a,b)` mod
2^32; with an all-zero `a` or an all-zero `b` every lane keeps its 32-bit value. -/
theorem dpbusd_additive_in_acc
    (acc4 : Vec 4) (a4 b4 : Vec 16) (acc8 : Vec 8) (a8 b8 : Vec 32)
    (acc16 : Vec 16) (a16 b16 : Vec 64) (v f : Bool)
    (w : Vec 16 → Vec 16 → Vec 4 → Vec 4) :
    ((∀ k, m128_add_dpbusd_epi32 acc4 a4 b4 k
          = s32 (acc4 k + m128_add_dpbusd_epi32 (fun _ => 0) a4 b4 k))
      ∧ (∀ k, m256_add_dpbusd_epi32 v acc8 a8 b8 k
          = s32 (acc8 k + m256_add_dpbusd_epi32 v (fun _ => 0) a8 b8 k))
      ∧ (∀ k, m512_add_dpbusd_epi32 v f acc16 a16 b16 k
          = s32 (acc16 k + m512_add_dpbusd_epi32 v f (fun _ => 0) a16 b16 k))
      ∧ (∀ k, neon_m128_add_dpbusd_epi32 acc4 a4 b4 k
          = s32 (acc4 k + neon_m128_add_dpbusd_epi32 (fun _ => 0) a4 b4 k))
      ∧ (∀ k, dotprod_m128_add_dpbusd_epi32 acc4 a4 b4 k
          = s32 (acc4 k + dotprod_m128_add_dpbusd_epi32 (fun _ => 0) a4 b4 k))
      ∧ (∀ k, wasm_i32x4_add_dpbusd_epi32 false w acc4 a4 b4 k
          = s32 (acc4 k + wasm_i32x4_add_dpbusd_epi32 false w (fun _ => 0) a4 b4 k)))
    ∧ ((∀ k, m128_add_dpbusd_epi32 acc4 (fun _ => 0) b4 k = s32 (acc4 k)
          ∧ m128_add_dpbusd_epi32 acc4 a4 (fun _ => 0) k = s32 (acc4 k))
      ∧ (∀ k, m256_add_dpbusd_epi32 v acc8 (fun _ => 0) b8 k = s32 (acc8 k)
          ∧ m256_add_dpbusd_epi32 v acc8 a8 (fun _ => 0) k = s32 (acc8 k))
      ∧ (∀ k, m512_add_dpbusd_epi32 v f acc16 (fun _ => 0) b16 k = s32 (acc16 k)
          ∧ m512_add_dpbusd_epi32 v f acc16 a16 (fun _ => 0) k = s32 (acc16 k))
      ∧ (∀ k, neon_m128_add_dpbusd_epi32 acc4 (fun _ => 0) b4 k = s32 (acc4 k)
          ∧ neon_m128_add_dpbusd_epi32 acc4 a4 (fun _ => 0) k = s32 (acc4 k))
      ∧ (∀ k, dotprod_m128_add_dpbusd_epi32 acc4 (fun _ => 0) b4 k = s32 (acc4 k)
          ∧ dotprod_m128_add_dpbusd_epi32 acc4 a4 (fun _ => 0) k = s32 (acc4 k))
      ∧ (∀ k, wasm_i32x4_add_dpbusd_epi32 false w acc4 (fun _ => 0) b4 k = s32 (acc4 k)
          ∧ wasm_i32x4_add_dpbusd_epi32 false w acc4 a4 (fun _ => 0) k = s32 (acc4 k))) :=
  ⟨⟨m128_additive acc4 a4 b4, m256_additive v acc8 a8 b8, m512_additive v f acc16 a16 b16,
      neon_additive acc4 a4 b4, dotprod_additive acc4 a4 b4, wasm_additive w acc4 a4 b4⟩,
    ⟨fun k => ⟨(m128_zero acc4 b4 k).1, (m128_zero acc4 a4 k).2⟩,
      fun k => ⟨(m256_zero v acc8 b8 k).1, (m256_zero v acc8 a8 k).2⟩,
      fun k => ⟨(m512_zero v f acc16 b16 k).1, (m512_zero v f acc16 a16 k).2⟩,
      fun k => ⟨(neon_zero acc4 b4 k).1, (neon_zero acc4 a4 k).2⟩,
      fun k => ⟨(dotprod_zero acc4 b4 k).1, (dotprod_zero acc4 a4 k).2⟩,
      fun k => ⟨(wasm_zero w acc4 b4 k).1, (wasm_zero w acc4 a4 k).2⟩⟩⟩


/-! ## The interleaved reduce keeps every partial sum -/

theorem s32_sum4 (a b c d : Int) :
    s32 (s32 a + s32 b + s32 c + s32 d) = s32 (a + b + c + d) := by
  unfold s32; omega

theorem interleave_column_sum (sum0 sum1 sum2 sum3 : Vec 16) (j : Fin 4) :
    s32 (m512_hadd128x16_interleave sum0 sum1 sum2 sum3 ⟨j.val, by omega⟩
        + m512_hadd128x16_interleave sum0 sum1 sum2 sum3 ⟨4 + j.val, by omega⟩
        + m512_hadd128x16_interleave sum0 sum1 sum2 sum3 ⟨8 + j.val, by omega⟩
        + m512_hadd128x16_interleave sum0 sum1 sum2 sum3 ⟨12 + j.val, by omega⟩)
      = m512_hadd (![sum0, sum1, sum2, sum3] j) 0 := by
  have e0 := interleave_lane_sum sum0 sum1 sum2 sum3 0 j
  have e1 := interleave_lane_sum sum0 sum1 sum2 sum3 1 j
  have e2 := interleave_lane_sum sum0 sum1 sum2 sum3 2 j
  have e3 := interleave_lane_sum sum0 sum1 sum2 sum3 3 j
  generalize (![sum0, sum1, sum2, sum3] j) = S at e0 e1 e2 e3 ⊢
  simp only [Fin.val_zero, Fin.val_one, Fin.val_two, show ((3 : Fin 4) : Nat) = 3 from rfl,
    Fin.sum_univ_four, mul_zero, mul_one, zero_add, add_zero, Nat.reduceMul, Nat.reduceAdd,
    Fin.reduceFinMk] at e0 e1 e2 e3
  rw [e0, e1, e2, e3, m512_hadd_sum, sum_univ_sixteen, s32_sum4]
  congr 1
  ring

/-- C19: the four-way interleaved reduce loses no partial sum.  For every `j` in `0..3`
the sum (mod 2^32) of output lanes `j`, `4+j`, `8+j` and `12+j` of
`m512_hadd128x16_interleave sum0 sum1 sum2 sum3` equals `m512_hadd sumJ 0`; consequently
`m512_hadd` of the interleaved result with bias 0 equals
`m512_hadd sum0 0 + m512_hadd sum1 0 + m512_hadd sum2 0 + m512_hadd sum3 0` mod 2^32. -/
theorem interleave_keeps_partial_sums (sum0 sum1 sum2 sum3 : Vec 16) :
    (∀ j : Fin 4,
      s32 (m512_hadd128x16_interleave sum0 sum1 sum2 sum3 ⟨j.val, by omega⟩
          + m512_hadd128x16_interleave sum0 sum1 sum2 sum3 ⟨4 + j.val, by omega⟩
          + m512_hadd128x16_interleave sum0 sum1 sum2 sum3 ⟨8 + j.val, by omega⟩
          + m512_hadd128x16_interleave sum0 sum1 sum2 sum3 ⟨12 + j.val, by omega⟩)
        = m512_hadd (![sum0, sum1, sum2, sum3] j) 0)
    ∧ m512_hadd (m512_hadd128x16_interleave sum0 sum1 sum2 sum3) 0
        = s32 (m512_hadd sum0 0 + m512_hadd sum1 0 + m512_hadd sum2 0
            + m512_hadd sum3 0) := by
  refine ⟨interleave_column_sum sum0 sum1 sum2 sum3, ?_⟩
  have c0 := interleave_column_sum sum0 sum1 sum2 sum3 0
  have c1 := interleave_column_sum sum0 sum1 sum2 sum3 1
  have c2 := interleave_column_sum sum0 sum1 sum2 sum3 2
  have c3 := interleave_column_sum sum0 sum1 sum2 sum3 3
  simp only [Fin.val_zero, Fin.val_one, Fin.val_two, show ((3 : Fin 4) : Nat) = 3 from rfl,
    add_zero, Nat.reduceAdd, Fin.reduceFinMk, Matrix.cons_val_zero, Matrix.cons_val_one,
    Matrix.head_cons, Matrix.cons_val_two, Matrix.tail_cons, Matrix.cons_val_three] at c0 c1 c2 c3
  rw [← c0, ← c1, ← c2, ← c3, s32_sum4, m512_hadd_sum, sum_univ_sixteen]
  congr 1
  ring

end Stockfish.Simd
